import Mathlib

/-!
# HashMapC: an open-addressed hash table with caller-supplied strategies

A shallow embedding of `HashMap.c` / `HashMap.h`.

* A `void*` is an `Option`: `none` is `NULL`, `some x` is a pointer to the content `x`.
* The slot array `map->table` is a `List (Pair K V)`, kept apart from the field
  `map->size` as in the C struct. Reading `table[i]` outside the array, and `hash % 0`
  in `clamp`, are undefined in C; every operation therefore returns an `Option`
  whose `none` stands for that fault.
* The four function pointers are fields of the map. A mutating operation returns
  an `Outcome`: its C return value, the map afterwards, and the list of
  `alloc` / `dealloc` calls it made, in order.
* The C `int` counters (`index`, `offset`, `numTraversed`, `i`, `sum`, `pos`) only
  hold values bounded by `map->size`; they are naturals here, which is exact for
  every table of fewer than `2^31` slots.
* Each `while (numTraversed < map->size)` / `for (i = 0; i < map->size; i++)` loop
  is a recursion on the number of iterations still to run, started at `map.size`.
-/

set_option autoImplicit false

namespace HashMapC

/-- The struct `Pair` of `HashMap.h`: one slot of the table. -/
structure Pair (K V : Type) where
  key : Option K
  value : Option V
  deleted : Bool
deriving DecidableEq, Repr

/-- The struct `HashMap` of `HashMap.h`. -/
structure HashMap (K V : Type) where
  table : List (Pair K V)
  size : Nat
  hash : Option K → Nat
  equals : Option K → Option K → Bool
  alloc : Pair K V → Option K → Option V → Pair K V
  dealloc : Pair K V → Pair K V

/-- One call of a memory strategy on the slot with the given index. -/
inductive StrategyCall where
  | dealloc (slot : Nat)
  | alloc (slot : Nat)
deriving DecidableEq, Repr

/-- Result of a mutating operation: return value, map afterwards, strategy calls made. -/
structure Outcome (K V R : Type) where
  ret : R
  map : HashMap K V
  calls : List StrategyCall

/-- The function `clamp`: `hash % map->size`; a fault when the size is zero. -/
def clamp {K V : Type} (map : HashMap K V) (hash : Nat) : Option Nat :=
  if map.size = 0 then none else some (hash % map.size)

/-- The function `inteq`: false when either pointer is `NULL`, else compares the integers. -/
def inteq (key1 key2 : Option Int) : Bool :=
  match key1, key2 with
  | some k1, some k2 => k1 == k2
  | _, _ => false

/-- The function `Pair_default`. -/
def Pair_default {K V : Type} : Pair K V :=
  { deleted := true, key := none, value := none }

/-- The function `HashMap_make`: `size` default slots and the four strategies. -/
def HashMap_make {K V : Type} (size : Nat) (hash : Option K → Nat)
    (equals : Option K → Option K → Bool)
    (allocator : Pair K V → Option K → Option V → Pair K V)
    (deallocator : Pair K V → Pair K V) : HashMap K V :=
  { size := size
    table := List.replicate size Pair_default
    hash := hash
    equals := equals
    alloc := allocator
    dealloc := deallocator }

/-- Loop of `HashMap_count`: `n` iterations left, index `i`, running `sum`. -/
def HashMap_count_loop {K V : Type} (map : HashMap K V) : Nat → Nat → Nat → Option Nat
  | 0, _, sum => some sum
  | n + 1, i, sum =>
    match map.table[i]? with
    | none => none
    | some p =>
      if p.key.isSome then HashMap_count_loop map n (i + 1) (sum + 1)
      else HashMap_count_loop map n (i + 1) sum

/-- The function `HashMap_count`: the number of slots whose key pointer is not `NULL`. -/
def HashMap_count {K V : Type} (map : HashMap K V) : Option Nat :=
  HashMap_count_loop map map.size 0 0

/-- Loop of `HashMap_entries`: copies every slot that is not flagged deleted into a
buffer of `cap` elements; writing past the buffer is a fault. -/
def HashMap_entries_loop {K V : Type} (map : HashMap K V) (cap : Nat) :
    Nat → Nat → List (Pair K V) → Option (List (Pair K V))
  | 0, _, entries => some entries
  | n + 1, i, entries =>
    match map.table[i]? with
    | none => none
    | some p =>
      if !p.deleted then
        if entries.length < cap then HashMap_entries_loop map cap n (i + 1) (entries ++ [p])
        else none
      else HashMap_entries_loop map cap n (i + 1) entries

/-- The function `HashMap_entries`: `NULL` when the count is zero, else the written buffer. -/
def HashMap_entries {K V : Type} (map : HashMap K V) : Option (Option (List (Pair K V))) :=
  match HashMap_count map with
  | none => none
  | some c =>
    if c = 0 then some none
    else
      match HashMap_entries_loop map c map.size 0 [] with
      | none => none
      | some entries => some (some entries)

/-- Loop of `HashMap_keys`: as `HashMap_entries_loop`, storing the key pointers only. -/
def HashMap_keys_loop {K V : Type} (map : HashMap K V) (cap : Nat) :
    Nat → Nat → List (Option K) → Option (List (Option K))
  | 0, _, keys => some keys
  | n + 1, i, keys =>
    match map.table[i]? with
    | none => none
    | some p =>
      if !p.deleted then
        if keys.length < cap then HashMap_keys_loop map cap n (i + 1) (keys ++ [p.key])
        else none
      else HashMap_keys_loop map cap n (i + 1) keys

/-- The function `HashMap_keys`: `NULL` when the count is zero, else the written buffer. -/
def HashMap_keys {K V : Type} (map : HashMap K V) : Option (Option (List (Option K))) :=
  match HashMap_count map with
  | none => none
  | some c =>
    if c = 0 then some none
    else
      match HashMap_keys_loop map c map.size 0 [] with
      | none => none
      | some keys => some (some keys)

/-- The step closing every probe loop:
`if (offset >= map->size - 1) offset = 0; else offset++;`. -/
def nextOffset {K V : Type} (map : HashMap K V) (offset : Nat) : Nat :=
  if offset ≥ map.size - 1 then 0 else offset + 1

/-- Loop of `HashMap_insert`: `n` iterations left, probing at `offset`. -/
def HashMap_insert_loop {K V : Type} (map : HashMap K V) (key : Option K) (value : Option V) :
    Nat → Nat → Option (Outcome K V Bool)
  | 0, _ => some { ret := false, map := map, calls := [] }
  | n + 1, offset =>
    match map.table[offset]? with
    | none => none
    | some p =>
      if map.equals p.key key then
        some { ret := true
               map := { map with
                 table := map.table.set offset (map.alloc (map.dealloc p) key value) }
               calls := [StrategyCall.dealloc offset, StrategyCall.alloc offset] }
      else if p.deleted then
        some { ret := true
               map := { map with
                 table := map.table.set offset { map.alloc p key value with deleted := false } }
               calls := [StrategyCall.alloc offset] }
      else HashMap_insert_loop map key value n (nextOffset map offset)

/-- The function `HashMap_insert`. -/
def HashMap_insert {K V : Type} (map : HashMap K V) (key : Option K) (value : Option V) :
    Option (Outcome K V Bool) :=
  match clamp map (map.hash key) with
  | none => none
  | some index => HashMap_insert_loop map key value map.size index

/-- Loop of `HashMap_get`: the value pointer of the first probed slot whose key equals `key`. -/
def HashMap_get_loop {K V : Type} (map : HashMap K V) (key : Option K) :
    Nat → Nat → Option (Option V)
  | 0, _ => some none
  | n + 1, offset =>
    match map.table[offset]? with
    | none => none
    | some p =>
      if map.equals p.key key then some p.value
      else HashMap_get_loop map key n (nextOffset map offset)

/-- The function `HashMap_get`. -/
def HashMap_get {K V : Type} (map : HashMap K V) (key : Option K) : Option (Option V) :=
  match clamp map (map.hash key) with
  | none => none
  | some index => HashMap_get_loop map key map.size index

/-- Loop of `HashMap_remove`: the first probed slot whose key equals `key` is handed to
`dealloc` and then overwritten with `Pair_default()`. -/
def HashMap_remove_loop {K V : Type} (map : HashMap K V) (key : Option K) :
    Nat → Nat → Option (Outcome K V Bool)
  | 0, _ => some { ret := false, map := map, calls := [] }
  | n + 1, offset =>
    match map.table[offset]? with
    | none => none
    | some p =>
      if map.equals p.key key then
        some { ret := true
               map := { map with table := map.table.set offset Pair_default }
               calls := [StrategyCall.dealloc offset] }
      else HashMap_remove_loop map key n (nextOffset map offset)

/-- The function `HashMap_remove`. -/
def HashMap_remove {K V : Type} (map : HashMap K V) (key : Option K) :
    Option (Outcome K V Bool) :=
  match clamp map (map.hash key) with
  | none => none
  | some index => HashMap_remove_loop map key map.size index

/-- Loop of `HashMap_contains`. -/
def HashMap_contains_loop {K V : Type} (map : HashMap K V) (key : Option K) :
    Nat → Nat → Option Bool
  | 0, _ => some false
  | n + 1, index =>
    match map.table[index]? with
    | none => none
    | some p =>
      if map.equals p.key key then some true
      else HashMap_contains_loop map key n (nextOffset map index)

/-- The function `HashMap_contains`. -/
def HashMap_contains {K V : Type} (map : HashMap K V) (key : Option K) : Option Bool :=
  match clamp map (map.hash key) with
  | none => none
  | some index => HashMap_contains_loop map key map.size index

/-! ## Specification vocabulary -/

/-- Representation invariant of a usable table: the slot array has `size` slots, `size ≥ 1`. -/
def WellFormed {K V : Type} (map : HashMap K V) : Prop :=
  map.table.length = map.size ∧ 1 ≤ map.size

/-- Contract of `equals`: a genuine equality of contents that is false on a `NULL` operand. -/
def EqualsContract {K : Type} (equals : Option K → Option K → Bool) : Prop :=
  ∀ a b, equals a b = true ↔ ∃ x, a = some x ∧ b = some x

/-- Contract of `alloc`: it stores the given key and value in the slot. -/
def AllocStores {K V : Type} (alloc : Pair K V → Option K → Option V → Pair K V) : Prop :=
  ∀ p k v, (alloc p k v).key = k ∧ (alloc p k v).value = v

/-- Contract of the two memory strategies towards the `deleted` flag: neither writes it
(as `allocate` and `deallocate` of `main.c`, which touch `key` and `value` only). -/
def FlagUntouched {K V : Type} (alloc : Pair K V → Option K → Option V → Pair K V)
    (dealloc : Pair K V → Pair K V) : Prop :=
  (∀ p k v, (alloc p k v).deleted = p.deleted) ∧ ∀ p, (dealloc p).deleted = p.deleted

/-- Contract of the two memory strategies on the update path of `HashMap_insert`
(`dealloc` then `alloc` on a slot in use, with no write to the flag in between): the
slot is still in use afterwards, its `deleted` flag is still false. It holds in
particular when neither strategy writes the flag. -/
def UpdateKeepsLive {K V : Type} (alloc : Pair K V → Option K → Option V → Pair K V)
    (dealloc : Pair K V → Pair K V) : Prop :=
  ∀ p k v, p.deleted = false → (alloc (dealloc p) k v).deleted = false

/-- Tables reachable from `m0` by calls of `HashMap_insert` and `HashMap_remove` on
present (non-`NULL`) keys. -/
inductive Reachable {K V : Type} (m0 : HashMap K V) : HashMap K V → Prop where
  | start : Reachable m0 m0
  | insert {m : HashMap K V} {out : Outcome K V Bool} (k : K) (v : Option V) :
      Reachable m0 m → HashMap_insert m (some k) v = some out → Reachable m0 out.map
  | remove {m : HashMap K V} {out : Outcome K V Bool} (k : K) :
      Reachable m0 m → HashMap_remove m (some k) = some out → Reachable m0 out.map

/-- Calls `HashMap_insert` on each pair in order; yields the final map and the list of
return values. -/
def insertMany {K V : Type} (map : HashMap K V) :
    List (K × Option V) → Option (HashMap K V × List Bool)
  | [] => some (map, [])
  | kv :: rest =>
    match HashMap_insert map (some kv.1) kv.2 with
    | none => none
    | some out =>
      match insertMany out.map rest with
      | none => none
      | some r => some (r.1, out.ret :: r.2)

/-- The probe order of the specification: `start, start+1, …` wrapping modulo the
capacity, `n` slots long. -/
def probeOrder (size start n : Nat) : List Nat :=
  (List.range n).map (fun t => (start + t) % size)

/-- Whether slot `i` exists and satisfies `P`. -/
def slotSat {K V : Type} (map : HashMap K V) (P : Pair K V → Bool) (i : Nat) : Bool :=
  match map.table[i]? with
  | some p => P p
  | none => false

/-- Index of the first slot satisfying `P` among the first `n` slots of the probe order. -/
def firstMatch {K V : Type} (map : HashMap K V) (P : Pair K V → Bool) (start n : Nat) :
    Option Nat :=
  (probeOrder map.size start n).find? (slotSat map P)

/-- The value pointer held by slot `j` (`NULL` when there is no such slot). -/
def valueAt {K V : Type} (map : HashMap K V) (j : Nat) : Option V :=
  match map.table[j]? with
  | some p => p.value
  | none => none

/-- What `HashMap_insert` does once its probe has selected slot `j`. -/
def insertAt {K V : Type} (map : HashMap K V) (key : Option K) (value : Option V) (j : Nat) :
    Outcome K V Bool :=
  match map.table[j]? with
  | none => { ret := false, map := map, calls := [] }
  | some p =>
    if map.equals p.key key then
      { ret := true
        map := { map with table := map.table.set j (map.alloc (map.dealloc p) key value) }
        calls := [StrategyCall.dealloc j, StrategyCall.alloc j] }
    else
      { ret := true
        map := { map with table := map.table.set j { map.alloc p key value with deleted := false } }
        calls := [StrategyCall.alloc j] }

/-- Two maps with the same capacity and the same four strategies. -/
def SameConfig {K V : Type} (a b : HashMap K V) : Prop :=
  b.size = a.size ∧ b.hash = a.hash ∧ b.equals = a.equals ∧ b.alloc = a.alloc ∧
    b.dealloc = a.dealloc

/-! ## Example strategies over integer keys and natural-number values -/

/-- A hash strategy sending every key to `0`: all keys collide. -/
def constHash : Option Int → Nat := fun _ => 0

/-- An `alloc` strategy storing the key and the value in the slot. -/
def storeAlloc : Pair Int Nat → Option Int → Option Nat → Pair Int Nat :=
  fun p k v => { p with key := k, value := v }

/-- A `dealloc` strategy releasing memory only: the slot's fields are as before. -/
def freeDealloc : Pair Int Nat → Pair Int Nat := fun p => p

/-- The map `HashMap_make(size, constHash, inteq, storeAlloc, freeDealloc)`. -/
def exampleMap (size : Nat) : HashMap Int Nat :=
  HashMap_make size constHash inteq storeAlloc freeDealloc

/-- A full table of two slots holding the keys `1` and `2`. -/
def fullMap : HashMap Int Nat :=
  { exampleMap 2 with table := [⟨some 1, some 10, false⟩, ⟨some 2, some 20, false⟩] }

/-- A one-slot table whose slot holds the key `1` with a `NULL` value, as left by
`HashMap_insert(&map, &one, NULL)` on a fresh table. -/
def nullValueMap : HashMap Int Nat :=
  { exampleMap 1 with table := [⟨some 1, none, false⟩] }

/-- The two-slot example map with the given slot array. -/
def tableMap (t : List (Pair Int Nat)) : HashMap Int Nat :=
  { exampleMap 2 with table := t }

/-- The example map after `insert(1, 10)`. -/
def oneKeyMap : HashMap Int Nat :=
  tableMap [⟨some 1, some 10, false⟩, Pair_default]

/-- The example map after `insert(1, 10)`, `insert(2, 20)`, `remove(1)`: slot 0 is
empty again and the key `2` sits behind it in slot 1. -/
def holeMap : HashMap Int Nat :=
  tableMap [Pair_default, ⟨some 2, some 20, false⟩]

/-- The map `holeMap` after `insert(2, 21)`: the key `2` is held by both slots. -/
def dupMap : HashMap Int Nat :=
  tableMap [⟨some 2, some 21, false⟩, ⟨some 2, some 20, false⟩]

/-- Invariant relating a table built by inserts only to the pairs `done` inserted so far:
every stored key comes with its value from `done`, every pair of `done` has a slot,
free slots hold no key, and no more slots are in use than pairs were inserted. -/
def InsertedExactly {K V : Type} (m : HashMap K V) (done : List (K × Option V)) : Prop :=
  (∀ p ∈ m.table, ∀ x, p.key = some x → (x, p.value) ∈ done) ∧
  (∀ kv ∈ done, ∃ p ∈ m.table, p.key = some kv.1) ∧
  (∀ p ∈ m.table, p.deleted = true → p.key = none) ∧
  m.table.countP (fun p => !p.deleted) ≤ done.length

/-! ## String strategies, the demonstration program, clear and resize

A `char*` is the list of the `char` values (as `int`s) found from the pointer on; the end
of the list reads as the terminating NUL. -/

/-- The characters of the C string at a `char*`: those before the first NUL. -/
def cstr (s : List Int) : List Int :=
  s.takeWhile (fun c => c != 0)

/-- The C operator `x << n` on an `int`: defined only for `x ≥ 0`, `n < 32` and a result
that fits in an `int`; every other case is a fault. -/
def intShl (x : Int) (n : Nat) : Option Int :=
  if x < 0 ∨ 32 ≤ n ∨ 2 ^ 31 ≤ x * 2 ^ n then none else some (x * 2 ^ n)

/-- Loop of `strhash`: `while ((current = *str++)) sum += (current << 3) << multiplier++;`
with `sum` an `unsigned long` (64 bits). -/
def strhash_loop : List Int → Nat → Nat → Option Nat
  | [], sum, _ => some sum
  | current :: str, sum, multiplier =>
    if current = 0 then some sum
    else
      match intShl current 3 with
      | none => none
      | some a =>
        match intShl a multiplier with
        | none => none
        | some b => strhash_loop str ((sum + b.toNat) % 2 ^ 64) (multiplier + 1)

/-- The function `strhash`; reading through a `NULL` key is a fault. -/
def strhash (key : Option (List Int)) : Option Nat :=
  match key with
  | none => none
  | some str => strhash_loop str 0 1

/-- The C library function `strcmp`: zero when the two strings agree up to and including
their terminating NUL, else the difference of the first two characters that differ. -/
def strcmp : List Int → List Int → Int
  | [], [] => 0
  | [], y :: _ => 0 - y
  | x :: _, [] => x
  | x :: xs, y :: ys => if x ≠ y then x - y else if x = 0 then 0 else strcmp xs ys

/-- The function `streq`: false when either pointer is `NULL`, else `strcmp(..) == 0`. -/
def streq (lhs rhs : Option (List Int)) : Bool :=
  match lhs, rhs with
  | some key1, some key2 => strcmp key1 key2 == 0
  | _, _ => false

/-- The function `allocate` of `main.c`: stores a copy of the key string (`strcpy`, so up
to its NUL) and a copy of the pointed-to `int`. `main.c` faults on a `NULL` argument;
here a `NULL` argument is stored as `NULL`. -/
def allocate (p : Pair (List Int) Int) (key : Option (List Int)) (value : Option Int) :
    Pair (List Int) Int :=
  { p with key := key.map cstr, value := value }

/-- The function `deallocate` of `main.c`: frees the two copies, writes no field. -/
def deallocate (p : Pair (List Int) Int) : Pair (List Int) Int := p

/-- The function `strhash` as the `hash` field of a map; where `strhash` faults the field
is given the value `0`. -/
def strhashField (key : Option (List Int)) : Nat :=
  (strhash key).getD 0

/-- The map of `main`: `HashMap_make(4, &strhash, &streq, &allocate, &deallocate)`. -/
def mainMap : HashMap (List Int) Int :=
  HashMap_make 4 strhashField streq allocate deallocate

/-- The function `HashMap_clear`: the slot array is freed and replaced by `size` default
slots; no strategy is called. -/
def HashMap_clear {K V : Type} (map : HashMap K V) : Outcome K V Unit :=
  { ret := ()
    map := { map with table := List.replicate map.size Pair_default }
    calls := [] }

/-- The function `HashMap_resize`: `realloc(map->table, size)` asks for `size` bytes, so
the new block holds `size / pairBytes` whole slots, `pairBytes` being `sizeof(Pair)`;
slots of the old array are kept, slots beyond it hold the indeterminate contents
`fresh`; then `map->size = size`. -/
def HashMap_resize {K V : Type} (pairBytes : Nat) (fresh : Nat → Pair K V)
    (map : HashMap K V) (size : Nat) : HashMap K V :=
  { map with
    table := (List.range (size / pairBytes)).map (fun i => (map.table[i]?).getD (fresh i))
    size := size }

/-- Tables reachable from `m0` by calls of `HashMap_insert`, `HashMap_remove` (on present
keys) and `HashMap_clear`. -/
inductive ReachableClear {K V : Type} (m0 : HashMap K V) : HashMap K V → Prop where
  | start : ReachableClear m0 m0
  | insert {m : HashMap K V} {out : Outcome K V Bool} (k : K) (v : Option V) :
      ReachableClear m0 m → HashMap_insert m (some k) v = some out →
      ReachableClear m0 out.map
  | remove {m : HashMap K V} {out : Outcome K V Bool} (k : K) :
      ReachableClear m0 m → HashMap_remove m (some k) = some out → ReachableClear m0 out.map
  | clear {m : HashMap K V} : ReachableClear m0 m → ReachableClear m0 (HashMap_clear m).map

/-- Tables reachable from `m0` by calls of `HashMap_insert` only, together with the keys
of the calls that returned true (latest first). -/
inductive InsertOnly {K V : Type} (m0 : HashMap K V) : HashMap K V → List K → Prop where
  | start : InsertOnly m0 m0 []
  | accepted {m : HashMap K V} {keys : List K} {out : Outcome K V Bool} (k : K)
      (v : Option V) : InsertOnly m0 m keys → HashMap_insert m (some k) v = some out →
      out.ret = true → InsertOnly m0 out.map (k :: keys)
  | refused {m : HashMap K V} {keys : List K} {out : Outcome K V Bool} (k : K)
      (v : Option V) : InsertOnly m0 m keys → HashMap_insert m (some k) v = some out →
      out.ret = false → InsertOnly m0 out.map keys

/-- The sum of `c * 2^(i+3)` over the characters `c` of a string, `i` being the position
of `c`, counted from `i` for the first character. -/
def shiftedSum : List Int → Nat → Int
  | [], _ => 0
  | c :: cs, i => c * 2 ^ (i + 3) + shiftedSum cs (i + 1)

/-- The string `"A"`. -/
def strA : List Int := [65]

/-- The string `"B"`. -/
def strB : List Int := [66]

/-- The string `"C"`. -/
def strC : List Int := [67]

/-- The string `"D"`. -/
def strD : List Int := [68]

/-- The example map after `insert(1, 10)`, `insert(2, 20)`, `clear()`, `insert(2, 21)`. -/
def clearedMap : HashMap Int Nat :=
  tableMap [⟨some 2, some 21, false⟩, Pair_default]

/-- State of a table built by inserts only, `keys` being the keys accepted so far: a
slot is in use exactly when it has a key, the stored keys are the accepted keys, the
insert probe of every stored key ends on the slot storing it, and the slots with a key
are as many as the distinct accepted keys. -/
def InsertState {K V : Type} [DecidableEq K] (m : HashMap K V) (keys : List K) : Prop :=
  (∀ p ∈ m.table, (p.deleted = false ↔ p.key.isSome = true)) ∧
  (∀ x, (∃ p ∈ m.table, p.key = some x) ↔ x ∈ keys) ∧
  (∀ j p x, m.table[j]? = some p → p.key = some x →
    firstMatch m (fun q => m.equals q.key (some x) || q.deleted)
      (m.hash (some x) % m.size) m.size = some j) ∧
  m.table.countP (fun p => p.key.isSome) = keys.dedup.length

/-- The example map after `insert(1, 10)`, `insert(2, 20)`, `insert(1, 11)`. -/
def updatedMap : HashMap Int Nat :=
  tableMap [⟨some 1, some 11, false⟩, ⟨some 2, some 20, false⟩]

/-- A `dealloc` strategy that, after releasing the entry, resets the slot:
`*p = Pair_default();`. -/
def resetDealloc : Pair Int Nat → Pair Int Nat := fun _ => Pair_default

/-- The two-slot map `HashMap_make(2, constHash, inteq, storeAlloc, resetDealloc)` with the
given slot array. -/
def resetMap (t : List (Pair Int Nat)) : HashMap Int Nat :=
  { HashMap_make 2 constHash inteq storeAlloc resetDealloc with table := t }

/-- The map `resetMap` after `insert(1, 10)`, `insert(1, 11)`: the update ran `resetDealloc`
and `storeAlloc` on slot 0, which now holds the key `1` with `deleted == true`. -/
def flaggedMap : HashMap Int Nat :=
  resetMap [⟨some 1, some 11, true⟩, Pair_default]

/-- The map `flaggedMap` after `insert(2, 20)`: slot 0, flagged deleted, was taken for the
key `2`. -/
def overwrittenMap : HashMap Int Nat :=
  resetMap [⟨some 2, some 20, false⟩, Pair_default]

/-! ## The probe loops and the probe order -/

theorem nextOffset_lt {K V : Type} (map : HashMap K V) (off : Nat) (h1 : 1 ≤ map.size) :
    nextOffset map off < map.size := by
  unfold nextOffset
  split <;> omega

theorem nextOffset_mod {K V : Type} (map : HashMap K V) (off t : Nat) (h : off < map.size) :
    (off + (t + 1)) % map.size = (nextOffset map off + t) % map.size := by
  unfold nextOffset
  split
  · have h2 : off + 1 = map.size := by omega
    have : off + (t + 1) = t + map.size := by omega
    rw [this, Nat.add_mod_right, Nat.zero_add]
  · congr 1
    omega

theorem probeOrder_zero (size start : Nat) : probeOrder size start 0 = [] := by
  simp [probeOrder]

theorem probeOrder_succ {K V : Type} (map : HashMap K V) (off n : Nat) (h : off < map.size) :
    probeOrder map.size off (n + 1) = off :: probeOrder map.size (nextOffset map off) n := by
  unfold probeOrder
  rw [List.range_succ_eq_map, List.map_cons, List.map_map]
  congr 1
  · simpa using Nat.mod_eq_of_lt h
  · apply List.map_congr_left
    intro t _
    simpa using nextOffset_mod map off t h

theorem firstMatch_zero {K V : Type} (map : HashMap K V) (P : Pair K V → Bool) (off : Nat) :
    firstMatch map P off 0 = none := by
  simp [firstMatch, probeOrder_zero]

theorem firstMatch_succ {K V : Type} (map : HashMap K V) (P : Pair K V → Bool) (off n : Nat)
    (h : off < map.size) :
    firstMatch map P off (n + 1) =
      if slotSat map P off then some off else firstMatch map P (nextOffset map off) n := by
  unfold firstMatch
  rw [probeOrder_succ map off n h, List.find?_cons]
  cases slotSat map P off <;> rfl

theorem getElem?_of_wf {K V : Type} {map : HashMap K V} (hw : WellFormed map) {i : Nat}
    (h : i < map.size) : ∃ p, map.table[i]? = some p := by
  have : i < map.table.length := by rw [hw.1]; exact h
  exact ⟨map.table[i], List.getElem?_eq_getElem this⟩

theorem HashMap_get_loop_eq {K V : Type} (map : HashMap K V) (key : Option K)
    (hw : WellFormed map) (n : Nat) :
    ∀ off, off < map.size →
      HashMap_get_loop map key n off =
        some (match firstMatch map (fun p => map.equals p.key key) off n with
              | none => none
              | some j => valueAt map j) := by
  induction n with
  | zero => intro off _; simp [HashMap_get_loop, firstMatch_zero]
  | succ n ih =>
    intro off h
    obtain ⟨p, hp⟩ := getElem?_of_wf hw h
    rw [firstMatch_succ map _ off n h]
    simp only [HashMap_get_loop, hp, slotSat, valueAt]
    by_cases he : map.equals p.key key = true
    · simp [he, hp]
    · simp only [he, if_false, Bool.false_eq_true]
      exact ih _ (nextOffset_lt map off hw.2)

theorem HashMap_contains_loop_eq {K V : Type} (map : HashMap K V) (key : Option K)
    (hw : WellFormed map) (n : Nat) :
    ∀ off, off < map.size →
      HashMap_contains_loop map key n off =
        some (firstMatch map (fun p => map.equals p.key key) off n).isSome := by
  induction n with
  | zero => intro off _; simp [HashMap_contains_loop, firstMatch_zero]
  | succ n ih =>
    intro off h
    obtain ⟨p, hp⟩ := getElem?_of_wf hw h
    rw [firstMatch_succ map _ off n h]
    simp only [HashMap_contains_loop, hp, slotSat]
    by_cases he : map.equals p.key key = true
    · simp [he]
    · simp only [he, if_false, Bool.false_eq_true]
      exact ih _ (nextOffset_lt map off hw.2)

theorem HashMap_remove_loop_eq {K V : Type} (map : HashMap K V) (key : Option K)
    (hw : WellFormed map) (n : Nat) :
    ∀ off, off < map.size →
      HashMap_remove_loop map key n off =
        some (match firstMatch map (fun p => map.equals p.key key) off n with
              | none => { ret := false, map := map, calls := [] }
              | some j => { ret := true
                            map := { map with table := map.table.set j Pair_default }
                            calls := [StrategyCall.dealloc j] }) := by
  induction n with
  | zero => intro off _; simp [HashMap_remove_loop, firstMatch_zero]
  | succ n ih =>
    intro off h
    obtain ⟨p, hp⟩ := getElem?_of_wf hw h
    rw [firstMatch_succ map _ off n h]
    simp only [HashMap_remove_loop, hp, slotSat]
    by_cases he : map.equals p.key key = true
    · simp [he]
    · simp only [he, if_false, Bool.false_eq_true]
      exact ih _ (nextOffset_lt map off hw.2)

theorem HashMap_insert_loop_eq {K V : Type} (map : HashMap K V) (key : Option K)
    (value : Option V) (hw : WellFormed map) (n : Nat) :
    ∀ off, off < map.size →
      HashMap_insert_loop map key value n off =
        some (match firstMatch map (fun p => map.equals p.key key || p.deleted) off n with
              | none => { ret := false, map := map, calls := [] }
              | some j => insertAt map key value j) := by
  induction n with
  | zero => intro off _; simp [HashMap_insert_loop, firstMatch_zero]
  | succ n ih =>
    intro off h
    obtain ⟨p, hp⟩ := getElem?_of_wf hw h
    rw [firstMatch_succ map _ off n h]
    simp only [HashMap_insert_loop, hp, slotSat, insertAt]
    by_cases he : map.equals p.key key = true
    · simp [he, hp]
    · by_cases hd : p.deleted = true
      · simp [he, hd, hp]
      · simp only [he, hd, if_false, Bool.false_eq_true, Bool.or_self]
        exact ih _ (nextOffset_lt map off hw.2)

theorem clamp_eq {K V : Type} (map : HashMap K V) (hw : WellFormed map) (h : Nat) :
    clamp map h = some (h % map.size) ∧ h % map.size < map.size := by
  have h1 := hw.2
  refine ⟨?_, Nat.mod_lt _ (by omega)⟩
  unfold clamp
  rw [if_neg (by omega)]

theorem mem_probeOrder_lt {size start n i : Nat} (hs : 1 ≤ size)
    (h : i ∈ probeOrder size start n) : i < size := by
  unfold probeOrder at h
  obtain ⟨t, _, rfl⟩ := List.mem_map.1 h
  exact Nat.mod_lt _ (by omega)

theorem mem_probeOrder_full {size start i : Nat} (hs : start < size) (hi : i < size) :
    i ∈ probeOrder size start size := by
  unfold probeOrder
  apply List.mem_map.2
  by_cases h : start ≤ i
  · refine ⟨i - start, List.mem_range.2 (by omega), ?_⟩
    have : start + (i - start) = i := by omega
    rw [this]; exact Nat.mod_eq_of_lt hi
  · refine ⟨i + size - start, List.mem_range.2 (by omega), ?_⟩
    have : start + (i + size - start) = i + size := by omega
    rw [this, Nat.add_mod_right]; exact Nat.mod_eq_of_lt hi

theorem slotSat_iff {K V : Type} (map : HashMap K V) (P : Pair K V → Bool) (i : Nat) :
    slotSat map P i = true ↔ ∃ p, map.table[i]? = some p ∧ P p = true := by
  unfold slotSat
  cases map.table[i]? <;> simp

theorem firstMatch_some {K V : Type} {map : HashMap K V} {P : Pair K V → Bool}
    {start n j : Nat} (hw : WellFormed map) (h : firstMatch map P start n = some j) :
    j < map.size ∧ ∃ p, map.table[j]? = some p ∧ P p = true := by
  unfold firstMatch at h
  exact ⟨mem_probeOrder_lt hw.2 (List.mem_of_find?_eq_some h),
    (slotSat_iff map P j).1 (List.find?_some h)⟩

theorem firstMatch_full_none {K V : Type} {map : HashMap K V} {P : Pair K V → Bool}
    {start : Nat} (hw : WellFormed map) (hs : start < map.size) :
    firstMatch map P start map.size = none ↔ ∀ p ∈ map.table, P p = false := by
  unfold firstMatch
  rw [List.find?_eq_none]
  constructor
  · intro h p hp
    obtain ⟨i, hi⟩ := List.mem_iff_getElem?.1 hp
    have hlt : i < map.size := by
      rw [← hw.1]
      exact (List.getElem?_eq_some.1 hi).1
    have := h i (mem_probeOrder_full hs hlt)
    cases hP : P p
    · rfl
    · exact absurd ((slotSat_iff map P i).2 ⟨p, hi, hP⟩) this
  · intro h i _ hsat
    obtain ⟨p, hp, hP⟩ := (slotSat_iff map P i).1 hsat
    have := h p (List.mem_iff_getElem?.2 ⟨i, hp⟩)
    rw [this] at hP
    exact absurd hP (by simp)

theorem firstMatch_full_isSome {K V : Type} {map : HashMap K V} {P : Pair K V → Bool}
    {start : Nat} (hw : WellFormed map) (hs : start < map.size) :
    (firstMatch map P start map.size).isSome = true ↔ ∃ p ∈ map.table, P p = true := by
  constructor
  · intro h
    obtain ⟨j, hj⟩ := Option.isSome_iff_exists.1 h
    obtain ⟨_, p, hp, hP⟩ := firstMatch_some hw hj
    exact ⟨p, List.mem_iff_getElem?.2 ⟨j, hp⟩, hP⟩
  · rintro ⟨p, hp, hP⟩
    cases hf : firstMatch map P start map.size with
    | some j => rfl
    | none =>
      have := (firstMatch_full_none hw hs).1 hf p hp
      rw [this] at hP
      exact absurd hP (by simp)

theorem HashMap_count_loop_eq {K V : Type} (map : HashMap K V) (n : Nat) :
    ∀ i sum, i + n = map.table.length →
      HashMap_count_loop map n i sum =
        some (sum + (map.table.drop i).countP (fun p => p.key.isSome)) := by
  induction n with
  | zero =>
    intro i sum h
    simp [HashMap_count_loop, List.drop_of_length_le (show map.table.length ≤ i by omega)]
  | succ n ih =>
    intro i sum h
    have hi : i < map.table.length := by omega
    rw [List.drop_eq_getElem_cons hi]
    simp only [HashMap_count_loop, List.getElem?_eq_getElem hi, List.countP_cons]
    split
    · rw [ih (i + 1) (sum + 1) (by omega)]
      simp [*]; omega
    · rw [ih (i + 1) sum (by omega)]
      simp [*]

theorem HashMap_count_eq {K V : Type} (map : HashMap K V) (h : map.table.length = map.size) :
    HashMap_count map = some (map.table.countP (fun p => p.key.isSome)) := by
  unfold HashMap_count
  rw [HashMap_count_loop_eq map map.size 0 0 (by omega)]
  simp

theorem HashMap_get_eq {K V : Type} (map : HashMap K V) (hw : WellFormed map) (key : Option K) :
    HashMap_get map key =
      some (match firstMatch map (fun p => map.equals p.key key)
                    (map.hash key % map.size) map.size with
            | none => none
            | some j => valueAt map j) := by
  unfold HashMap_get
  rw [(clamp_eq map hw _).1]
  exact HashMap_get_loop_eq map key hw _ _ (clamp_eq map hw _).2

theorem HashMap_contains_eq {K V : Type} (map : HashMap K V) (hw : WellFormed map)
    (key : Option K) :
    HashMap_contains map key =
      some (firstMatch map (fun p => map.equals p.key key)
              (map.hash key % map.size) map.size).isSome := by
  unfold HashMap_contains
  rw [(clamp_eq map hw _).1]
  exact HashMap_contains_loop_eq map key hw _ _ (clamp_eq map hw _).2

theorem HashMap_remove_eq {K V : Type} (map : HashMap K V) (hw : WellFormed map)
    (key : Option K) :
    HashMap_remove map key =
      some (match firstMatch map (fun p => map.equals p.key key)
                    (map.hash key % map.size) map.size with
            | none => { ret := false, map := map, calls := [] }
            | some j => { ret := true
                          map := { map with table := map.table.set j Pair_default }
                          calls := [StrategyCall.dealloc j] }) := by
  unfold HashMap_remove
  rw [(clamp_eq map hw _).1]
  exact HashMap_remove_loop_eq map key hw _ _ (clamp_eq map hw _).2

theorem HashMap_insert_eq {K V : Type} (map : HashMap K V) (hw : WellFormed map)
    (key : Option K) (value : Option V) :
    HashMap_insert map key value =
      some (match firstMatch map (fun p => map.equals p.key key || p.deleted)
                    (map.hash key % map.size) map.size with
            | none => { ret := false, map := map, calls := [] }
            | some j => insertAt map key value j) := by
  unfold HashMap_insert
  rw [(clamp_eq map hw _).1]
  exact HashMap_insert_loop_eq map key value hw _ _ (clamp_eq map hw _).2

theorem countP_set_of {α : Type} (p : α → Bool) :
    ∀ (l : List α) (i : Nat) (a old : α), l[i]? = some old →
      (l.set i a).countP p + (if p old then 1 else 0) = l.countP p + (if p a then 1 else 0)
  | [], i, a, old, h => by simp at h
  | x :: l, 0, a, old, h => by
    simp at h
    subst h
    simp only [List.set_cons_zero, List.countP_cons]
    omega
  | x :: l, i + 1, a, old, h => by
    simp at h
    have := countP_set_of p l i a old h
    simp only [List.set_cons_succ, List.countP_cons]
    omega

theorem firstMatch_set_self {K V : Type} {map map2 : HashMap K V} {P P2 : Pair K V → Bool}
    {start n j : Nat} {x : Pair K V} (hw : WellFormed map)
    (h : firstMatch map P start n = some j)
    (hsize : map2.size = map.size) (htab : map2.table = map.table.set j x)
    (hx : P2 x = true) (himp : ∀ p, P2 p = true → P p = true) :
    firstMatch map2 P2 start n = some j := by
  have hj := (firstMatch_some hw h).1
  unfold firstMatch at h ⊢
  rw [List.find?_eq_some] at h ⊢
  obtain ⟨_, as, bs, hsplit, hpre⟩ := h
  have hjl : j < map.table.length := by rw [hw.1]; exact hj
  refine ⟨?_, as, bs, by rw [hsize]; exact hsplit, ?_⟩
  · rw [slotSat_iff]
    exact ⟨x, by rw [htab]; exact List.getElem?_set_self hjl, hx⟩
  · intro a ha
    have hna := hpre a ha
    have hne : j ≠ a := by
      rintro rfl
      simp_all
    cases hs : slotSat map2 P2 a
    · rfl
    · exfalso
      obtain ⟨p, hp, hP⟩ := (slotSat_iff map2 P2 a).1 hs
      rw [htab, List.getElem?_set_ne hne] at hp
      have : slotSat map P a = true := (slotSat_iff map P a).2 ⟨p, hp, himp p hP⟩
      simp [this] at hna

theorem firstMatch_congr {K V : Type} {map map2 : HashMap K V} {P P2 : Pair K V → Bool}
    (start n : Nat) (hsize : map2.size = map.size)
    (h : ∀ i, slotSat map2 P2 i = slotSat map P i) :
    firstMatch map2 P2 start n = firstMatch map P start n := by
  unfold firstMatch
  rw [hsize, show slotSat map2 P2 = slotSat map P from funext h]

theorem HashMap_insert_shape {K V : Type} {map : HashMap K V} (hw : WellFormed map)
    {key : Option K} {value : Option V} {out : Outcome K V Bool}
    (h : HashMap_insert map key value = some out) :
    (firstMatch map (fun p => map.equals p.key key || p.deleted)
        (map.hash key % map.size) map.size = none ∧
      out.ret = false ∧ out.map = map ∧ out.calls = []) ∨
    (∃ j p, firstMatch map (fun p => map.equals p.key key || p.deleted)
        (map.hash key % map.size) map.size = some j ∧
      j < map.size ∧ map.table[j]? = some p ∧ out.ret = true ∧
      ((map.equals p.key key = true ∧
          out.map = { map with table := map.table.set j (map.alloc (map.dealloc p) key value) } ∧
          out.calls = [StrategyCall.dealloc j, StrategyCall.alloc j]) ∨
       (map.equals p.key key = false ∧ p.deleted = true ∧
          out.map = { map with
            table := map.table.set j { map.alloc p key value with deleted := false } } ∧
          out.calls = [StrategyCall.alloc j]))) := by
  rw [HashMap_insert_eq map hw] at h
  cases hf : firstMatch map (fun p => map.equals p.key key || p.deleted)
      (map.hash key % map.size) map.size with
  | none =>
    rw [hf] at h
    simp only [Option.some.injEq] at h
    subst h
    exact Or.inl ⟨rfl, rfl, rfl, rfl⟩
  | some j =>
    rw [hf] at h
    simp only [Option.some.injEq] at h
    obtain ⟨hj, p, hp, hP⟩ := firstMatch_some hw hf
    refine Or.inr ⟨j, p, rfl, hj, hp, ?_⟩
    subst h
    unfold insertAt
    rw [hp]
    by_cases he : map.equals p.key key = true
    · simp [he]
    · have hd : p.deleted = true := by simpa [he] using hP
      simp [he, hd]

theorem HashMap_remove_shape {K V : Type} {map : HashMap K V} (hw : WellFormed map)
    {key : Option K} {out : Outcome K V Bool}
    (h : HashMap_remove map key = some out) :
    (firstMatch map (fun p => map.equals p.key key)
        (map.hash key % map.size) map.size = none ∧
      out.ret = false ∧ out.map = map ∧ out.calls = []) ∨
    (∃ j p, firstMatch map (fun p => map.equals p.key key)
        (map.hash key % map.size) map.size = some j ∧
      j < map.size ∧ map.table[j]? = some p ∧ map.equals p.key key = true ∧ out.ret = true ∧
      out.map = { map with table := map.table.set j Pair_default } ∧
      out.calls = [StrategyCall.dealloc j]) := by
  rw [HashMap_remove_eq map hw] at h
  cases hf : firstMatch map (fun p => map.equals p.key key)
      (map.hash key % map.size) map.size with
  | none =>
    rw [hf] at h
    simp only [Option.some.injEq] at h
    subst h
    exact Or.inl ⟨rfl, rfl, rfl, rfl⟩
  | some j =>
    rw [hf] at h
    simp only [Option.some.injEq] at h
    obtain ⟨hj, p, hp, hP⟩ := firstMatch_some hw hf
    subst h
    exact Or.inr ⟨j, p, rfl, hj, hp, hP, rfl, rfl, rfl⟩

theorem HashMap_insert_config {K V : Type} {map : HashMap K V} (hw : WellFormed map)
    {key : Option K} {value : Option V} {out : Outcome K V Bool}
    (h : HashMap_insert map key value = some out) :
    WellFormed out.map ∧ SameConfig map out.map := by
  rcases HashMap_insert_shape hw h with ⟨_, _, hm, _⟩ | ⟨j, p, _, _, _, _, h2⟩
  · rw [hm]; exact ⟨hw, rfl, rfl, rfl, rfl, rfl⟩
  · rcases h2 with ⟨_, hm, _⟩ | ⟨_, _, hm, _⟩ <;>
    · rw [hm]
      exact ⟨⟨by simpa using hw.1, hw.2⟩, rfl, rfl, rfl, rfl, rfl⟩

theorem HashMap_remove_config {K V : Type} {map : HashMap K V} (hw : WellFormed map)
    {key : Option K} {out : Outcome K V Bool}
    (h : HashMap_remove map key = some out) :
    WellFormed out.map ∧ SameConfig map out.map := by
  rcases HashMap_remove_shape hw h with ⟨_, _, hm, _⟩ | ⟨j, p, _, _, _, _, _, hm, _⟩
  · rw [hm]; exact ⟨hw, rfl, rfl, rfl, rfl, rfl⟩
  · rw [hm]
    exact ⟨⟨by simpa using hw.1, hw.2⟩, rfl, rfl, rfl, rfl, rfl⟩

theorem SameConfig.trans {K V : Type} {a b c : HashMap K V} (h1 : SameConfig a b)
    (h2 : SameConfig b c) : SameConfig a c := by
  obtain ⟨a1, a2, a3, a4, a5⟩ := h1
  obtain ⟨b1, b2, b3, b4, b5⟩ := h2
  exact ⟨b1.trans a1, b2.trans a2, b3.trans a3, b4.trans a4, b5.trans a5⟩

theorem Reachable.config {K V : Type} {m0 m : HashMap K V} (hw0 : WellFormed m0)
    (hr : Reachable m0 m) : WellFormed m ∧ SameConfig m0 m := by
  induction hr with
  | start => exact ⟨hw0, rfl, rfl, rfl, rfl, rfl⟩
  | insert k v _ h ih =>
    have := HashMap_insert_config ih.1 h
    exact ⟨this.1, ih.2.trans this.2⟩
  | remove k _ h ih =>
    have := HashMap_remove_config ih.1 h
    exact ⟨this.1, ih.2.trans this.2⟩

theorem HashMap_make_wf {K V : Type} (size : Nat) (hs : 1 ≤ size) (hash : Option K → Nat)
    (equals : Option K → Option K → Bool)
    (alloc : Pair K V → Option K → Option V → Pair K V) (dealloc : Pair K V → Pair K V) :
    WellFormed (HashMap_make size hash equals alloc dealloc) := by
  exact ⟨by simp [HashMap_make], hs⟩

theorem inteq_contract : EqualsContract inteq := by
  intro a b
  cases a with
  | none => simp [inteq]
  | some x =>
    cases b with
    | none => simp [inteq]
    | some y =>
      simp only [inteq, beq_iff_eq, Option.some.injEq]
      constructor
      · rintro rfl; exact ⟨x, rfl, rfl⟩
      · rintro ⟨z, rfl, rfl⟩; rfl

theorem storeAlloc_stores : AllocStores storeAlloc := by
  intro p k v
  exact ⟨rfl, rfl⟩

theorem store_free_flag : FlagUntouched storeAlloc freeDealloc :=
  ⟨fun _ _ _ => rfl, fun _ => rfl⟩

theorem updateKeepsLive_of_flagUntouched {K V : Type}
    {alloc : Pair K V → Option K → Option V → Pair K V} {dealloc : Pair K V → Pair K V}
    (h : FlagUntouched alloc dealloc) : UpdateKeepsLive alloc dealloc := by
  intro p k v hp
  rw [h.1, h.2, hp]

theorem store_free_live : UpdateKeepsLive storeAlloc freeDealloc :=
  updateKeepsLive_of_flagUntouched store_free_flag

theorem reachable_oneKeyMap : Reachable (exampleMap 2) oneKeyMap :=
  Reachable.insert 1 (some 10) Reachable.start
    (rfl : HashMap_insert (exampleMap 2) (some 1) (some 10) =
      some ⟨true, oneKeyMap, [StrategyCall.alloc 0]⟩)

theorem reachable_fullMap : Reachable (exampleMap 2) fullMap :=
  Reachable.insert 2 (some 20) reachable_oneKeyMap
    (rfl : HashMap_insert oneKeyMap (some 2) (some 20) =
      some ⟨true, fullMap, [StrategyCall.alloc 1]⟩)

theorem reachable_holeMap : Reachable (exampleMap 2) holeMap :=
  Reachable.remove 1 reachable_fullMap
    (rfl : HashMap_remove fullMap (some 1) = some ⟨true, holeMap, [StrategyCall.dealloc 0]⟩)

theorem reachable_dupMap : Reachable (exampleMap 2) dupMap :=
  Reachable.insert 2 (some 21) reachable_holeMap
    (rfl : HashMap_insert holeMap (some 2) (some 21) =
      some ⟨true, dupMap, [StrategyCall.alloc 0]⟩)

theorem Reachable.of_make {K V : Type} {C : Nat} {hash : Option K → Nat}
    {equals : Option K → Option K → Bool}
    {alloc : Pair K V → Option K → Option V → Pair K V} {dealloc : Pair K V → Pair K V}
    {m : HashMap K V} (hC : 1 ≤ C)
    (hr : Reachable (HashMap_make C hash equals alloc dealloc) m) :
    WellFormed m ∧ m.size = C ∧ m.hash = hash ∧ m.equals = equals ∧ m.alloc = alloc ∧
      m.dealloc = dealloc := by
  obtain ⟨hw, h1, h2, h3, h4, h5⟩ :=
    Reachable.config (HashMap_make_wf C hC hash equals alloc dealloc) hr
  exact ⟨hw, h1, h2, h3, h4, h5⟩

theorem key_isSome_of_equals {K : Type} {equals : Option K → Option K → Bool}
    (he : EqualsContract equals) {a b : Option K} (h : equals a b = true) :
    a.isSome = true ∧ a = b := by
  obtain ⟨x, rfl, rfl⟩ := (he a b).1 h
  exact ⟨rfl, rfl⟩

theorem HashMap_insert_true_slot {K V : Type} {map : HashMap K V} (hw : WellFormed map)
    (ha : AllocStores map.alloc) {key : Option K} {value : Option V} {out : Outcome K V Bool}
    (h : HashMap_insert map key value = some out) (ht : out.ret = true) :
    ∃ j new, firstMatch map (fun p => map.equals p.key key || p.deleted)
        (map.hash key % map.size) map.size = some j ∧
      j < map.size ∧ out.map.table = map.table.set j new ∧
      new.key = key ∧ new.value = value := by
  rcases HashMap_insert_shape hw h with ⟨_, hf, _, _⟩ | ⟨j, p, hf, hj, _, _, h2⟩
  · rw [hf] at ht; cases ht
  · rcases h2 with ⟨_, hm, _⟩ | ⟨_, _, hm, _⟩
    · exact ⟨j, _, hf, hj, by rw [hm], (ha _ _ _).1, (ha _ _ _).2⟩
    · exact ⟨j, { map.alloc p key value with deleted := false }, hf, hj, by rw [hm],
        (ha p key value).1, (ha p key value).2⟩

theorem equals_self {K : Type} {equals : Option K → Option K → Bool}
    (he : EqualsContract equals) (k : K) : equals (some k) (some k) = true :=
  (he _ _).2 ⟨k, rfl, rfl⟩

theorem valueAt_set_self {K V : Type} {map map2 : HashMap K V} {j : Nat} {x : Pair K V}
    (hj : j < map.table.length) (htab : map2.table = map.table.set j x) :
    valueAt map2 j = x.value := by
  unfold valueAt
  rw [htab, List.getElem?_set_self hj]

theorem reachable_occupied_key {K V : Type} {C : Nat} {hash : Option K → Nat}
    {equals : Option K → Option K → Bool}
    {alloc : Pair K V → Option K → Option V → Pair K V} {dealloc : Pair K V → Pair K V}
    {m : HashMap K V} (hC : 1 ≤ C) (ha : AllocStores alloc)
    (hr : Reachable (HashMap_make C hash equals alloc dealloc) m) :
    ∀ p ∈ m.table, p.deleted = false → p.key.isSome = true := by
  have hmk := HashMap_make_wf C hC hash equals alloc dealloc
  induction hr with
  | start =>
    intro p hp hd
    have hp2 : p ∈ List.replicate C (Pair_default : Pair K V) := hp
    rw [List.eq_of_mem_replicate hp2] at hd
    cases hd
  | @insert m1 out1 k v hr0 h ih =>
    obtain ⟨hw, hcfg⟩ := Reachable.config hmk hr0
    have hal : AllocStores m1.alloc := by rw [hcfg.2.2.2.1]; exact ha
    intro p hp hd
    rcases HashMap_insert_shape hw h with ⟨_, _, hm, _⟩ | ⟨j, q, _, _, _, _, h2⟩
    · rw [hm] at hp; exact ih p hp hd
    · rcases h2 with ⟨_, hm, _⟩ | ⟨_, _, hm, _⟩
      · rw [hm] at hp
        rcases List.mem_or_eq_of_mem_set hp with hp | rfl
        · exact ih p hp hd
        · rw [(hal _ _ _).1]; rfl
      · rw [hm] at hp
        rcases List.mem_or_eq_of_mem_set hp with hp | rfl
        · exact ih p hp hd
        · show (_ : Option K).isSome = true
          rw [(hal q (some k) v).1]; rfl
  | @remove m1 out1 k hr0 h ih =>
    obtain ⟨hw, _⟩ := Reachable.config hmk hr0
    intro p hp hd
    rcases HashMap_remove_shape hw h with ⟨_, _, hm, _⟩ | ⟨j, q, _, _, _, _, _, hm, _⟩
    · rw [hm] at hp; exact ih p hp hd
    · rw [hm] at hp
      rcases List.mem_or_eq_of_mem_set hp with hp | rfl
      · exact ih p hp hd
      · cases hd

theorem reachable_key_occupied {K V : Type} {C : Nat} {hash : Option K → Nat}
    {equals : Option K → Option K → Bool}
    {alloc : Pair K V → Option K → Option V → Pair K V} {dealloc : Pair K V → Pair K V}
    {m : HashMap K V} (hC : 1 ≤ C) (he : EqualsContract equals)
    (hfl : UpdateKeepsLive alloc dealloc)
    (hr : Reachable (HashMap_make C hash equals alloc dealloc) m) :
    ∀ p ∈ m.table, p.key.isSome = true → p.deleted = false := by
  have hmk := HashMap_make_wf C hC hash equals alloc dealloc
  induction hr with
  | start =>
    intro p hp hd
    have hp2 : p ∈ List.replicate C (Pair_default : Pair K V) := hp
    rw [List.eq_of_mem_replicate hp2] at hd
    cases hd
  | @insert m1 out1 k v hr0 h ih =>
    obtain ⟨hw, hcfg⟩ := Reachable.config hmk hr0
    have hfl1 : UpdateKeepsLive m1.alloc m1.dealloc := by
      rw [hcfg.2.2.2.1, hcfg.2.2.2.2]; exact hfl
    have he1 : EqualsContract m1.equals := by rw [hcfg.2.2.1]; exact he
    intro p hp hd
    rcases HashMap_insert_shape hw h with ⟨_, _, hm, _⟩ | ⟨j, q, _, _, hq, _, h2⟩
    · rw [hm] at hp; exact ih p hp hd
    · have hqm : q ∈ m1.table := List.mem_iff_getElem?.2 ⟨j, hq⟩
      rcases h2 with ⟨hqe, hm, _⟩ | ⟨_, _, hm, _⟩
      · rw [hm] at hp
        rcases List.mem_or_eq_of_mem_set hp with hp | rfl
        · exact ih p hp hd
        · exact hfl1 q (some k) v (ih q hqm (key_isSome_of_equals he1 hqe).1)
      · rw [hm] at hp
        rcases List.mem_or_eq_of_mem_set hp with hp | rfl
        · exact ih p hp hd
        · rfl
  | @remove m1 out1 k hr0 h ih =>
    obtain ⟨hw, _⟩ := Reachable.config hmk hr0
    intro p hp hd
    rcases HashMap_remove_shape hw h with ⟨_, _, hm, _⟩ | ⟨j, q, _, _, _, _, _, hm, _⟩
    · rw [hm] at hp; exact ih p hp hd
    · rw [hm] at hp
      rcases List.mem_or_eq_of_mem_set hp with hp | rfl
      · exact ih p hp hd
      · cases hd

theorem HashMap_entries_loop_eq {K V : Type} (map : HashMap K V) (cap n : Nat) :
    ∀ i (acc : List (Pair K V)), i + n = map.table.length →
      acc.length + (map.table.drop i).countP (fun p => !p.deleted) ≤ cap →
      HashMap_entries_loop map cap n i acc =
        some (acc ++ (map.table.drop i).filter (fun p => !p.deleted)) := by
  induction n with
  | zero =>
    intro i acc h _
    simp [HashMap_entries_loop, List.drop_of_length_le (show map.table.length ≤ i by omega)]
  | succ n ih =>
    intro i acc h hcap
    have hi : i < map.table.length := by omega
    rw [List.drop_eq_getElem_cons hi] at hcap ⊢
    simp only [HashMap_entries_loop, List.getElem?_eq_getElem hi]
    cases hd : (map.table[i]).deleted
    · simp only [List.countP_cons, hd, Bool.not_false, if_true] at hcap
      simp only [Bool.not_false, if_true, List.filter_cons, hd]
      rw [if_pos (by omega), ih (i + 1) _ (by omega) (by simp; omega)]
      simp
    · simp only [List.countP_cons, hd, Bool.not_true] at hcap
      simp only [Bool.not_true, List.filter_cons, hd]
      simp only [Bool.false_eq_true, if_false] at hcap ⊢
      exact ih (i + 1) acc (by omega) (by omega)

theorem HashMap_keys_loop_eq {K V : Type} (map : HashMap K V) (cap n : Nat) :
    ∀ i (acc : List (Option K)), i + n = map.table.length →
      acc.length + (map.table.drop i).countP (fun p => !p.deleted) ≤ cap →
      HashMap_keys_loop map cap n i acc =
        some (acc ++ ((map.table.drop i).filter (fun p => !p.deleted)).map (fun p => p.key)) := by
  induction n with
  | zero =>
    intro i acc h _
    simp [HashMap_keys_loop, List.drop_of_length_le (show map.table.length ≤ i by omega)]
  | succ n ih =>
    intro i acc h hcap
    have hi : i < map.table.length := by omega
    rw [List.drop_eq_getElem_cons hi] at hcap ⊢
    simp only [HashMap_keys_loop, List.getElem?_eq_getElem hi]
    cases hd : (map.table[i]).deleted
    · simp only [List.countP_cons, hd, Bool.not_false, if_true] at hcap
      simp only [Bool.not_false, if_true, List.filter_cons, hd]
      rw [if_pos (by omega), ih (i + 1) _ (by omega) (by simp; omega)]
      simp
    · simp only [List.countP_cons, hd, Bool.not_true] at hcap
      simp only [Bool.not_true, List.filter_cons, hd]
      simp only [Bool.false_eq_true, if_false] at hcap ⊢
      exact ih (i + 1) acc (by omega) (by omega)

theorem lookup_unchanged_of_set {K V : Type} {map map2 : HashMap K V} (hw : WellFormed map)
    (hcfg : SameConfig map map2) {j : Nat} {p x : Pair K V} (hp : map.table[j]? = some p)
    (htab : map2.table = map.table.set j x) (key : Option K)
    (h1 : map.equals p.key key = false) (h2 : map.equals x.key key = false) :
    HashMap_get map2 key = HashMap_get map key ∧
      HashMap_contains map2 key = HashMap_contains map key := by
  obtain ⟨hs, hh, he, _, _⟩ := hcfg
  have hjl : j < map.table.length := (List.getElem?_eq_some.1 hp).1
  have hw2 : WellFormed map2 := ⟨by rw [htab, hs]; simpa using hw.1, by rw [hs]; exact hw.2⟩
  have hsat : ∀ i, slotSat map2 (fun q => map2.equals q.key key) i =
      slotSat map (fun q => map.equals q.key key) i := by
    intro i
    unfold slotSat
    rw [htab, he]
    by_cases hij : j = i
    · subst hij
      rw [List.getElem?_set_self hjl, hp]
      simp [h1, h2]
    · rw [List.getElem?_set_ne hij]
  have hfm := firstMatch_congr (map.hash key % map.size) map.size hs hsat
  constructor
  · rw [HashMap_get_eq map2 hw2 key, HashMap_get_eq map hw key, hh, hs, hfm]
    cases hf : firstMatch map (fun q => map.equals q.key key) (map.hash key % map.size)
        map.size with
    | none => rfl
    | some i =>
      obtain ⟨_, q, hq, hE⟩ := firstMatch_some hw hf
      have hij : j ≠ i := by
        rintro rfl
        rw [hp] at hq
        cases hq
        rw [h1] at hE
        cases hE
      simp only [valueAt]
      rw [htab, List.getElem?_set_ne hij]
  · rw [HashMap_contains_eq map2 hw2 key, HashMap_contains_eq map hw key, hh, hs, hfm]

theorem equals_ne {K : Type} {equals : Option K → Option K → Bool}
    (he : EqualsContract equals) {a : Option K} {k k2 : K} (hne : k ≠ k2)
    (ha : a = none ∨ a = some k) : equals a (some k2) = false := by
  cases h : equals a (some k2)
  · rfl
  · exfalso
    obtain ⟨x, h1, h2⟩ := (he _ _).1 h
    cases h2
    rcases ha with rfl | rfl
    · cases h1
    · cases h1
      exact hne rfl

theorem snd_unique_of_nodup_keys {α β : Type} :
    ∀ (l : List (α × β)), (l.map Prod.fst).Nodup → ∀ a b b2, (a, b) ∈ l → (a, b2) ∈ l → b = b2
  | [], _, _, _, _, h, _ => by cases h
  | x :: l, hnd, a, b, b2, h1, h2 => by
    rw [List.map_cons, List.nodup_cons] at hnd
    rcases List.mem_cons.1 h1 with e1 | t1
    · rcases List.mem_cons.1 h2 with e2 | t2
      · rw [← e2] at e1
        cases e1
        rfl
      · have hmem : a ∈ l.map Prod.fst := List.mem_map.2 ⟨(a, b2), t2, rfl⟩
        rw [← e1] at hnd
        exact absurd hmem hnd.1
    · rcases List.mem_cons.1 h2 with e2 | t2
      · have hmem : a ∈ l.map Prod.fst := List.mem_map.2 ⟨(a, b), t1, rfl⟩
        rw [← e2] at hnd
        exact absurd hmem hnd.1
      · exact snd_unique_of_nodup_keys l hnd.2 a b b2 t1 t2

theorem insertedExactly_make {K V : Type} (C : Nat) (hash : Option K → Nat)
    (equals : Option K → Option K → Bool)
    (alloc : Pair K V → Option K → Option V → Pair K V) (dealloc : Pair K V → Pair K V) :
    InsertedExactly (HashMap_make C hash equals alloc dealloc) [] := by
  have hall : ∀ p ∈ (HashMap_make C hash equals alloc dealloc).table, p = Pair_default :=
    fun p hp => List.eq_of_mem_replicate (show p ∈ List.replicate C Pair_default from hp)
  refine ⟨?_, ?_, ?_, ?_⟩
  · intro p hp x hx
    rw [hall p hp] at hx
    cases hx
  · intro kv hkv
    cases hkv
  · intro p hp _
    rw [hall p hp]
    rfl
  · rw [List.length_nil, Nat.le_zero, List.countP_eq_zero]
    intro p hp
    rw [hall p hp]
    simp [Pair_default]

theorem insertedExactly_step {K V : Type} {m : HashMap K V} {done : List (K × Option V)}
    (hw : WellFormed m) (he : EqualsContract m.equals) (ha : AllocStores m.alloc)
    (hinv : InsertedExactly m done) (k : K) (v : Option V)
    (hnew : k ∉ done.map Prod.fst) (hroom : done.length < m.size) :
    ∃ out, HashMap_insert m (some k) v = some out ∧ out.ret = true ∧
      InsertedExactly out.map (done ++ [(k, v)]) := by
  obtain ⟨i1, i2, i3, i4⟩ := hinv
  have hs : m.hash (some k) % m.size < m.size := (clamp_eq m hw _).2
  obtain ⟨out, h⟩ : ∃ out, HashMap_insert m (some k) v = some out :=
    ⟨_, HashMap_insert_eq m hw (some k) v⟩
  have hnoeq : ∀ p ∈ m.table, m.equals p.key (some k) = false := by
    intro p hp
    cases hE : m.equals p.key (some k)
    · rfl
    · exfalso
      have hk := (key_isSome_of_equals he hE).2
      exact hnew (List.mem_map.2 ⟨(k, p.value), i1 p hp k hk, rfl⟩)
  refine ⟨out, h, ?_⟩
  rcases HashMap_insert_shape hw h with ⟨hf, _⟩ | ⟨j, p, _, hj, hp, ht, h2⟩
  · exfalso
    have hall := (firstMatch_full_none hw hs).1 hf
    have : m.table.countP (fun p => !p.deleted) = m.table.length := by
      rw [List.countP_eq_length]
      intro p hp
      have := hall p hp
      simp only [Bool.or_eq_false_iff] at this
      simp [this.2]
    rw [this, hw.1] at i4
    omega
  · have hpm : p ∈ m.table := List.mem_iff_getElem?.2 ⟨j, hp⟩
    have hjl : j < m.table.length := by rw [hw.1]; exact hj
    rcases h2 with ⟨hpe, _⟩ | ⟨_, hpd, hm, _⟩
    · rw [hnoeq p hpm] at hpe; cases hpe
    · refine ⟨ht, ?_⟩
      obtain ⟨new, hnk, hnv, hnd, htab⟩ : ∃ new : Pair K V, new.key = some k ∧ new.value = v ∧
          new.deleted = false ∧ out.map.table = m.table.set j new :=
        ⟨{ m.alloc p (some k) v with deleted := false }, (ha p (some k) v).1,
          (ha p (some k) v).2, rfl, by rw [hm]⟩
      rw [InsertedExactly, htab]
      refine ⟨?_, ?_, ?_, ?_⟩
      · intro q hq x hx
        rcases List.mem_or_eq_of_mem_set hq with hq | rfl
        · exact List.mem_append_left _ (i1 q hq x hx)
        · apply List.mem_append_right
          rw [hnk] at hx
          cases hx
          rw [hnv]
          exact List.mem_singleton.2 rfl
      · intro kv hkv
        rcases List.mem_append.1 hkv with hkv | hkv
        · obtain ⟨q, hq, hqk⟩ := i2 kv hkv
          obtain ⟨i, hi⟩ := List.mem_iff_getElem?.1 hq
          have hij : j ≠ i := by
            rintro rfl
            rw [hp] at hi
            cases hi
            rw [i3 p hpm hpd] at hqk
            cases hqk
          exact ⟨q, List.mem_iff_getElem?.2 ⟨i, by rw [List.getElem?_set_ne hij]; exact hi⟩, hqk⟩
        · rw [List.mem_singleton.1 hkv]
          exact ⟨new, List.mem_iff_getElem?.2 ⟨j, List.getElem?_set_self hjl⟩, hnk⟩
      · intro q hq hd
        rcases List.mem_or_eq_of_mem_set hq with hq | rfl
        · exact i3 q hq hd
        · rw [hnd] at hd; cases hd
      · have := countP_set_of (fun q : Pair K V => !q.deleted) m.table j new p hp
        simp only [hpd, hnd, Bool.not_true, Bool.not_false, if_true, Bool.false_eq_true,
          if_false] at this
        rw [List.length_append, List.length_singleton]
        omega

theorem insertMany_distinct {K V : Type} :
    ∀ (rest done : List (K × Option V)) (m : HashMap K V), WellFormed m →
      EqualsContract m.equals → AllocStores m.alloc → InsertedExactly m done →
      (done.map Prod.fst ++ rest.map Prod.fst).Nodup → done.length + rest.length < m.size →
      ∃ m2, insertMany m rest = some (m2, List.replicate rest.length true) ∧
        WellFormed m2 ∧ SameConfig m m2 ∧ InsertedExactly m2 (done ++ rest)
  | [], done, m, hw, _, _, hinv, _, _ =>
    ⟨m, rfl, hw, ⟨rfl, rfl, rfl, rfl, rfl⟩, by rw [List.append_nil]; exact hinv⟩
  | kv :: rest, done, m, hw, he, ha, hinv, hnd, hlen => by
    have hnew : kv.1 ∉ done.map Prod.fst := by
      intro hmem
      exact (List.disjoint_of_nodup_append hnd) hmem (by simp)
    rw [List.length_cons] at hlen
    obtain ⟨out, hins, hret, hinv1⟩ :=
      insertedExactly_step hw he ha hinv kv.1 kv.2 hnew (by omega)
    obtain ⟨hw1, hcfg1⟩ := HashMap_insert_config hw hins
    obtain ⟨m2, hmany, hw2, hcfg2, hinv2⟩ :=
      insertMany_distinct rest (done ++ [(kv.1, kv.2)]) out.map hw1
        (by rw [hcfg1.2.2.1]; exact he) (by rw [hcfg1.2.2.2.1]; exact ha) hinv1
        (by simpa using hnd) (by rw [hcfg1.1]; simp; omega)
    refine ⟨m2, ?_, hw2, hcfg1.trans hcfg2, by simpa using hinv2⟩
    simp only [insertMany, hins, hmany, hret, List.length_cons, List.replicate_succ]

theorem empty_table_queries {K V : Type} (m : HashMap K V) (hw : WellFormed m)
    (ht : m.table = List.replicate m.size Pair_default)
    (hnull : ∀ b, m.equals none b = false) :
    HashMap_count m = some 0 ∧
      ∀ k, HashMap_get m k = some none ∧ HashMap_contains m k = some false := by
  have hall : ∀ p ∈ m.table, p = Pair_default := by
    intro p hp
    rw [ht] at hp
    exact List.eq_of_mem_replicate hp
  constructor
  · rw [HashMap_count_eq m hw.1]
    congr 1
    rw [List.countP_eq_zero]
    intro p hp
    rw [hall p hp]
    simp [Pair_default]
  · intro k
    have hs : m.hash k % m.size < m.size := (clamp_eq m hw _).2
    have hnone : firstMatch m (fun p => m.equals p.key k) (m.hash k % m.size) m.size = none := by
      rw [firstMatch_full_none hw hs]
      intro p hp
      rw [hall p hp]
      exact hnull k
    rw [HashMap_get_eq m hw k, HashMap_contains_eq m hw k, hnone]
    exact ⟨rfl, rfl⟩

theorem cstr_nil : cstr [] = [] := rfl

theorem cstr_cons (x : Int) (xs : List Int) :
    cstr (x :: xs) = if x = 0 then [] else x :: cstr xs := by
  unfold cstr
  by_cases h : x = 0
  · simp [h]
  · simp [h, List.takeWhile_cons]

theorem strcmp_eq_zero : ∀ (a b : List Int), strcmp a b = 0 ↔ cstr a = cstr b
  | [], [] => by simp [strcmp]
  | [], y :: ys => by
    rw [cstr_cons, cstr_nil]
    by_cases h : y = 0
    · simp [strcmp, h]
    · simp [strcmp, h]
  | x :: xs, [] => by
    rw [cstr_cons, cstr_nil]
    by_cases h : x = 0
    · simp [strcmp, h]
    · simp [strcmp, h]
  | x :: xs, y :: ys => by
    rw [cstr_cons, cstr_cons]
    unfold strcmp
    by_cases hxy : x = y
    · subst hxy
      by_cases h : x = 0
      · simp [h]
      · simp [h, strcmp_eq_zero xs ys]
    · by_cases hx : x = 0
      · subst hx
        have hy : y ≠ 0 := fun h => hxy h.symm
        simp [hxy, hy]
      · by_cases hy : y = 0
        · subst hy
          simp [hx]
        · simp [hxy, hx, hy]
          omega

theorem HashMap_clear_config {K V : Type} {map : HashMap K V} (hw : WellFormed map) :
    WellFormed (HashMap_clear map).map ∧ SameConfig map (HashMap_clear map).map :=
  ⟨⟨by simp [HashMap_clear], hw.2⟩, rfl, rfl, rfl, rfl, rfl⟩

theorem reachableClear_config {K V : Type} {m0 m : HashMap K V} (hw0 : WellFormed m0)
    (hr : ReachableClear m0 m) : WellFormed m ∧ SameConfig m0 m := by
  induction hr with
  | start => exact ⟨hw0, rfl, rfl, rfl, rfl, rfl⟩
  | insert k v _ h ih =>
    have := HashMap_insert_config ih.1 h
    exact ⟨this.1, ih.2.trans this.2⟩
  | remove k _ h ih =>
    have := HashMap_remove_config ih.1 h
    exact ⟨this.1, ih.2.trans this.2⟩
  | clear _ ih =>
    have := HashMap_clear_config ih.1
    exact ⟨this.1, ih.2.trans this.2⟩

theorem insert_keeps_slot_invariant {K V : Type} {m : HashMap K V} (hw : WellFormed m)
    (he : EqualsContract m.equals) (ha : AllocStores m.alloc)
    (hfl : UpdateKeepsLive m.alloc m.dealloc)
    (hinv : ∀ p ∈ m.table, (p.deleted = false ↔ p.key.isSome = true))
    {k : K} {v : Option V} {out : Outcome K V Bool}
    (h : HashMap_insert m (some k) v = some out) :
    ∀ p ∈ out.map.table, (p.deleted = false ↔ p.key.isSome = true) := by
  intro p hp
  rcases HashMap_insert_shape hw h with ⟨_, _, hm, _⟩ | ⟨j, q, _, _, hq, _, h2⟩
  · rw [hm] at hp; exact hinv p hp
  · have hqm : q ∈ m.table := List.mem_iff_getElem?.2 ⟨j, hq⟩
    rcases h2 with ⟨hqe, hm, _⟩ | ⟨_, _, hm, _⟩
    · rw [hm] at hp
      rcases List.mem_or_eq_of_mem_set hp with hp | rfl
      · exact hinv p hp
      · have hlive := hfl q (some k) v ((hinv q hqm).2 (key_isSome_of_equals he hqe).1)
        rw [hlive, (ha _ _ _).1]
        simp
    · obtain ⟨new, hnk, hnd, htab⟩ : ∃ new : Pair K V, new.key = some k ∧
          new.deleted = false ∧ out.map.table = m.table.set j new :=
        ⟨{ m.alloc q (some k) v with deleted := false }, (ha q (some k) v).1, rfl, by rw [hm]⟩
      rw [htab] at hp
      rcases List.mem_or_eq_of_mem_set hp with hp | rfl
      · exact hinv p hp
      · simp [hnk, hnd]

theorem remove_keeps_slot_invariant {K V : Type} {m : HashMap K V} (hw : WellFormed m)
    (hinv : ∀ p ∈ m.table, (p.deleted = false ↔ p.key.isSome = true))
    {k : Option K} {out : Outcome K V Bool} (h : HashMap_remove m k = some out) :
    ∀ p ∈ out.map.table, (p.deleted = false ↔ p.key.isSome = true) := by
  intro p hp
  rcases HashMap_remove_shape hw h with ⟨_, _, hm, _⟩ | ⟨j, q, _, _, _, _, _, hm, _⟩
  · rw [hm] at hp; exact hinv p hp
  · rw [hm] at hp
    rcases List.mem_or_eq_of_mem_set hp with hp | rfl
    · exact hinv p hp
    · simp [Pair_default]

theorem replicate_default_slot_invariant {K V : Type} (n : Nat) :
    ∀ p ∈ List.replicate n (Pair_default : Pair K V),
      (p.deleted = false ↔ p.key.isSome = true) := by
  intro p hp
  rw [List.eq_of_mem_replicate hp]
  simp [Pair_default]

theorem reachableClear_clearedMap : ReachableClear (exampleMap 2) clearedMap :=
  ReachableClear.insert 2 (some 21)
    (ReachableClear.clear
      (ReachableClear.insert 2 (some 20)
        (ReachableClear.insert 1 (some 10) ReachableClear.start
          (rfl : HashMap_insert (exampleMap 2) (some 1) (some 10) =
            some ⟨true, oneKeyMap, [StrategyCall.alloc 0]⟩))
        (rfl : HashMap_insert oneKeyMap (some 2) (some 20) =
          some ⟨true, fullMap, [StrategyCall.alloc 1]⟩)))
    (rfl : HashMap_insert (HashMap_clear fullMap).map (some 2) (some 21) =
      some ⟨true, clearedMap, [StrategyCall.alloc 0]⟩)

theorem found_after_insert {K V : Type} {m : HashMap K V} (hw : WellFormed m)
    (he : EqualsContract m.equals) (ha : AllocStores m.alloc) {k : K} {v : Option V}
    {out : Outcome K V Bool} (h : HashMap_insert m (some k) v = some out)
    (ht : out.ret = true) :
    HashMap_get out.map (some k) = some v ∧ HashMap_contains out.map (some k) = some true := by
  obtain ⟨hw1, hs1, hh1, he1, _, _⟩ := HashMap_insert_config hw h
  obtain ⟨j, new, hf, hj, htab, hnk, hnv⟩ := HashMap_insert_true_slot hw ha h ht
  have hjl : j < m.table.length := by rw [hw.1]; exact hj
  have hfm : firstMatch out.map (fun p => out.map.equals p.key (some k))
      (out.map.hash (some k) % out.map.size) out.map.size = some j := by
    rw [hh1, hs1]
    exact firstMatch_set_self hw hf hs1 htab (by rw [hnk, he1]; exact equals_self he k)
      (fun p hp => by rw [he1] at hp; simp [hp])
  rw [HashMap_get_eq out.map hw1, HashMap_contains_eq out.map hw1, hfm]
  simp only [Option.isSome_some, and_true]
  rw [valueAt_set_self hjl htab, hnv]

theorem remove_other_keeps_lookup {K V : Type} {m : HashMap K V} (hw : WellFormed m)
    (he : EqualsContract m.equals) {k k2 : K} (hne : k ≠ k2) {out : Outcome K V Bool}
    (h : HashMap_remove m (some k) = some out) :
    HashMap_get out.map (some k2) = HashMap_get m (some k2) ∧
      HashMap_contains out.map (some k2) = HashMap_contains m (some k2) := by
  obtain ⟨_, hcfg⟩ := HashMap_remove_config hw h
  rcases HashMap_remove_shape hw h with ⟨_, _, hm, _⟩ | ⟨j, p, _, _, hp, hpe, _, hm, _⟩
  · rw [hm]; exact ⟨rfl, rfl⟩
  · exact lookup_unchanged_of_set hw hcfg hp (by rw [hm]) (some k2)
      (equals_ne he hne (Or.inr (key_isSome_of_equals he hpe).2))
      (equals_ne he hne (Or.inl rfl))

theorem later_entry_survives {K V : Type} {C : Nat} (hC : 1 ≤ C) {hash : Option K → Nat}
    {equals : Option K → Option K → Bool}
    {alloc : Pair K V → Option K → Option V → Pair K V} {dealloc : Pair K V → Pair K V}
    (he : EqualsContract equals) (ha : AllocStores alloc) {a b : K} (hne : a ≠ b)
    {va vb : Option V} {o1 o2 o3 : Outcome K V Bool}
    (h1 : HashMap_insert (HashMap_make C hash equals alloc dealloc) (some a) va = some o1)
    (h2 : HashMap_insert o1.map (some b) vb = some o2) (hb : o2.ret = true)
    (h3 : HashMap_remove o2.map (some a) = some o3) :
    HashMap_get o3.map (some b) = some vb ∧ HashMap_contains o3.map (some b) = some true := by
  have hw0 := HashMap_make_wf C hC hash equals alloc dealloc
  obtain ⟨hw1, _, _, e1, a1, _⟩ := HashMap_insert_config hw0 h1
  obtain ⟨hw2, _, _, e2, _, _⟩ := HashMap_insert_config hw1 h2
  have he1 : EqualsContract o1.map.equals := by rw [e1]; exact he
  have ha1 : AllocStores o1.map.alloc := by rw [a1]; exact ha
  have he2 : EqualsContract o2.map.equals := by rw [e2]; exact he1
  obtain ⟨g, c⟩ := found_after_insert hw1 he1 ha1 h2 hb
  obtain ⟨g3, c3⟩ := remove_other_keeps_lookup hw2 he2 hne h3
  exact ⟨g3.trans g, c3.trans c⟩

theorem slotSat_false_at {K V : Type} {map : HashMap K V} (hw : WellFormed map)
    {P : Pair K V → Bool} {off : Nat} (h : off < map.size)
    (hs : slotSat map P ((off + 0) % map.size) = false) :
    ∃ p, map.table[off]? = some p ∧ P p = false := by
  obtain ⟨p, hp⟩ := getElem?_of_wf hw h
  rw [Nat.add_zero, Nat.mod_eq_of_lt h] at hs
  refine ⟨p, hp, ?_⟩
  simpa [slotSat, hp] using hs

theorem HashMap_get_loop_skip {K V : Type} (map : HashMap K V) (key : Option K)
    (hw : WellFormed map) (n t : Nat) :
    ∀ off, off < map.size →
      (∀ s, s < t → slotSat map (fun p => map.equals p.key key) ((off + s) % map.size) = false) →
      HashMap_get_loop map key (n + t) off =
        HashMap_get_loop map key n ((off + t) % map.size) := by
  induction t with
  | zero => intro off h _; rw [Nat.add_zero, Nat.add_zero, Nat.mod_eq_of_lt h]
  | succ t ih =>
    intro off h hs
    obtain ⟨p, hp, hP⟩ := slotSat_false_at hw h (hs 0 (by omega))
    rw [← Nat.add_assoc, nextOffset_mod map off t h,
      ← ih _ (nextOffset_lt map off hw.2)
        (fun s hst => by rw [← nextOffset_mod map off s h]; exact hs (s + 1) (by omega))]
    simp only [HashMap_get_loop, hp]
    simp [hP]

theorem HashMap_contains_loop_skip {K V : Type} (map : HashMap K V) (key : Option K)
    (hw : WellFormed map) (n t : Nat) :
    ∀ off, off < map.size →
      (∀ s, s < t → slotSat map (fun p => map.equals p.key key) ((off + s) % map.size) = false) →
      HashMap_contains_loop map key (n + t) off =
        HashMap_contains_loop map key n ((off + t) % map.size) := by
  induction t with
  | zero => intro off h _; rw [Nat.add_zero, Nat.add_zero, Nat.mod_eq_of_lt h]
  | succ t ih =>
    intro off h hs
    obtain ⟨p, hp, hP⟩ := slotSat_false_at hw h (hs 0 (by omega))
    rw [← Nat.add_assoc, nextOffset_mod map off t h,
      ← ih _ (nextOffset_lt map off hw.2)
        (fun s hst => by rw [← nextOffset_mod map off s h]; exact hs (s + 1) (by omega))]
    simp only [HashMap_contains_loop, hp]
    simp [hP]

theorem HashMap_remove_loop_skip {K V : Type} (map : HashMap K V) (key : Option K)
    (hw : WellFormed map) (n t : Nat) :
    ∀ off, off < map.size →
      (∀ s, s < t → slotSat map (fun p => map.equals p.key key) ((off + s) % map.size) = false) →
      HashMap_remove_loop map key (n + t) off =
        HashMap_remove_loop map key n ((off + t) % map.size) := by
  induction t with
  | zero => intro off h _; rw [Nat.add_zero, Nat.add_zero, Nat.mod_eq_of_lt h]
  | succ t ih =>
    intro off h hs
    obtain ⟨p, hp, hP⟩ := slotSat_false_at hw h (hs 0 (by omega))
    rw [← Nat.add_assoc, nextOffset_mod map off t h,
      ← ih _ (nextOffset_lt map off hw.2)
        (fun s hst => by rw [← nextOffset_mod map off s h]; exact hs (s + 1) (by omega))]
    simp only [HashMap_remove_loop, hp]
    simp [hP]

theorem HashMap_insert_loop_skip {K V : Type} (map : HashMap K V) (key : Option K)
    (value : Option V) (hw : WellFormed map) (n t : Nat) :
    ∀ off, off < map.size →
      (∀ s, s < t → slotSat map (fun p => map.equals p.key key || p.deleted)
        ((off + s) % map.size) = false) →
      HashMap_insert_loop map key value (n + t) off =
        HashMap_insert_loop map key value n ((off + t) % map.size) := by
  induction t with
  | zero => intro off h _; rw [Nat.add_zero, Nat.add_zero, Nat.mod_eq_of_lt h]
  | succ t ih =>
    intro off h hs
    obtain ⟨p, hp, hP⟩ := slotSat_false_at hw h (hs 0 (by omega))
    rw [← Nat.add_assoc, nextOffset_mod map off t h,
      ← ih _ (nextOffset_lt map off hw.2)
        (fun s hst => by rw [← nextOffset_mod map off s h]; exact hs (s + 1) (by omega))]
    simp only [HashMap_insert_loop, hp]
    simp only [Bool.or_eq_false_iff] at hP
    simp [hP.1, hP.2]

theorem probe_index_injective {C start t1 t2 : Nat} (h1 : t1 < C) (h2 : t2 < C)
    (h : (start + t1) % C = (start + t2) % C) : t1 = t2 :=
  Nat.ModEq.eq_of_lt_of_lt (Nat.ModEq.add_left_cancel' start h) h1 h2

theorem intShl_of_bound {x : Int} {n : Nat} (hx : 0 ≤ x) (hn : n < 32)
    (hb : x * 2 ^ n < 2 ^ 31) : intShl x n = some (x * 2 ^ n) := by
  unfold intShl
  rw [if_neg]
  rintro (h | h | h) <;> omega

theorem shifted_char_bound {c : Int} {m : Nat} (h1 : 1 ≤ c) (h127 : c ≤ 127) (hm : m ≤ 21) :
    0 ≤ c * 2 ^ 3 * 2 ^ m ∧ c * 2 ^ 3 * 2 ^ m < 2 ^ 31 := by
  have hp : (2 : Int) ^ m ≤ 2 ^ 21 := pow_le_pow_right₀ (by norm_num) hm
  have hp0 : (0 : Int) < 2 ^ m := by positivity
  constructor
  · positivity
  · have : c * 2 ^ 3 * 2 ^ m ≤ 127 * 2 ^ 3 * 2 ^ 21 := by
      apply mul_le_mul _ hp (le_of_lt hp0) (by norm_num)
      omega
    calc c * 2 ^ 3 * 2 ^ m ≤ 127 * 2 ^ 3 * 2 ^ 21 := this
      _ < 2 ^ 31 := by norm_num

theorem strhash_loop_eq :
    ∀ (s : List Int) (sum mult : Nat), 1 ≤ mult → mult + s.length ≤ 22 →
      (∀ c ∈ s, 1 ≤ c ∧ c ≤ 127) → sum ≤ (mult - 1) * 2 ^ 31 →
      ∃ h, strhash_loop s sum mult = some h ∧ (h : Int) = sum + shiftedSum s mult ∧
        h ≤ (mult - 1 + s.length) * 2 ^ 31
  | [], sum, mult, _, _, _, hsum => ⟨sum, rfl, by simp [shiftedSum], by simpa using hsum⟩
  | c :: cs, sum, mult, hm, hlen, hc, hsum => by
    obtain ⟨h1, h127⟩ := hc c (List.mem_cons_self c cs)
    rw [List.length_cons] at hlen
    have hm21 : mult ≤ 21 := by omega
    obtain ⟨hb0, hb⟩ := shifted_char_bound h1 h127 hm21
    have hs3 : intShl c 3 = some (c * 2 ^ 3) := intShl_of_bound (by omega) (by norm_num) (by omega)
    have hsm : intShl (c * 2 ^ 3) mult = some (c * 2 ^ 3 * 2 ^ mult) :=
      intShl_of_bound (by omega) (by omega) hb
    have hnat : ((c * 2 ^ 3 * 2 ^ mult).toNat : Int) = c * 2 ^ 3 * 2 ^ mult := Int.toNat_of_nonneg hb0
    have hlt : (c * 2 ^ 3 * 2 ^ mult).toNat < 2 ^ 31 := by
      have : ((c * 2 ^ 3 * 2 ^ mult).toNat : Int) < 2 ^ 31 := by rw [hnat]; exact hb
      exact_mod_cast this
    have hnomod : (sum + (c * 2 ^ 3 * 2 ^ mult).toNat) % 2 ^ 64 =
        sum + (c * 2 ^ 3 * 2 ^ mult).toNat := by
      apply Nat.mod_eq_of_lt
      have : (mult - 1) * 2 ^ 31 ≤ 21 * 2 ^ 31 := Nat.mul_le_mul_right _ (by omega)
      omega
    have hsum2 : sum + (c * 2 ^ 3 * 2 ^ mult).toNat ≤ (mult + 1 - 1) * 2 ^ 31 := by
      have : (mult + 1 - 1) * 2 ^ 31 = (mult - 1) * 2 ^ 31 + 2 ^ 31 := by
        have : mult + 1 - 1 = (mult - 1) + 1 := by omega
        rw [this, Nat.add_mul, Nat.one_mul]
      omega
    obtain ⟨h, hh, hval, hbound⟩ :=
      strhash_loop_eq cs (sum + (c * 2 ^ 3 * 2 ^ mult).toNat) (mult + 1) (by omega) (by omega)
        (fun d hd => hc d (List.mem_cons_of_mem c hd)) hsum2
    refine ⟨h, ?_, ?_, ?_⟩
    · have hc0 : c ≠ 0 := by omega
      simp only [strhash_loop, hc0, if_false, hs3, hsm, hnomod]
      exact hh
    · rw [hval, Nat.cast_add, hnat]
      simp only [shiftedSum]
      rw [pow_add]
      ring
    · rw [List.length_cons]
      have : mult + 1 - 1 + cs.length = mult - 1 + (cs.length + 1) := by omega
      rw [← this]
      exact hbound

theorem shiftedSum_dvd : ∀ (s : List Int) (i : Nat), 1 ≤ i → (16 : Int) ∣ shiftedSum s i
  | [], _, _ => by simp [shiftedSum]
  | c :: cs, i, hi => by
    simp only [shiftedSum]
    apply dvd_add _ (shiftedSum_dvd cs (i + 1) (by omega))
    apply Dvd.dvd.mul_left
    have : i + 3 = 4 + (i - 1) := by omega
    rw [this, pow_add]
    exact Dvd.intro _ rfl

theorem firstMatch_mono {K V : Type} {map map2 : HashMap K V} {P P2 : Pair K V → Bool}
    {start n i : Nat} (h : firstMatch map P start n = some i)
    (hsize : map2.size = map.size)
    (hi : slotSat map2 P2 i = true)
    (himp : ∀ a, slotSat map2 P2 a = true → slotSat map P a = true) :
    firstMatch map2 P2 start n = some i := by
  unfold firstMatch at h ⊢
  rw [List.find?_eq_some] at h ⊢
  obtain ⟨_, as, bs, hsplit, hpre⟩ := h
  refine ⟨hi, as, bs, by rw [hsize]; exact hsplit, ?_⟩
  intro a ha
  have hna := hpre a ha
  cases hs : slotSat map2 P2 a
  · rfl
  · rw [himp a hs] at hna
    simp at hna

theorem insertState_make {K V : Type} [DecidableEq K] (C : Nat) (hash : Option K → Nat)
    (equals : Option K → Option K → Bool)
    (alloc : Pair K V → Option K → Option V → Pair K V) (dealloc : Pair K V → Pair K V) :
    InsertState (HashMap_make C hash equals alloc dealloc) [] := by
  have hall : ∀ p ∈ (HashMap_make C hash equals alloc dealloc).table, p = Pair_default :=
    fun p hp => List.eq_of_mem_replicate (show p ∈ List.replicate C Pair_default from hp)
  refine ⟨replicate_default_slot_invariant C, ?_, ?_, ?_⟩
  · intro x
    constructor
    · rintro ⟨p, hp, hk⟩
      rw [hall p hp] at hk
      cases hk
    · intro hx
      cases hx
  · intro j p x hp hk
    rw [hall p (List.mem_iff_getElem?.2 ⟨j, hp⟩)] at hk
    cases hk
  · rw [List.dedup_nil, List.length_nil, List.countP_eq_zero]
    intro p hp
    rw [hall p hp]
    simp [Pair_default]

theorem HashMap_insert_written_slot {K V : Type} {m : HashMap K V} (hw : WellFormed m)
    (he : EqualsContract m.equals) (ha : AllocStores m.alloc)
    (hfl : UpdateKeepsLive m.alloc m.dealloc)
    (hinv : ∀ p ∈ m.table, (p.deleted = false ↔ p.key.isSome = true))
    {k : K} {v : Option V} {out : Outcome K V Bool}
    (h : HashMap_insert m (some k) v = some out) (ht : out.ret = true) :
    ∃ j q new, firstMatch m (fun p => m.equals p.key (some k) || p.deleted)
        (m.hash (some k) % m.size) m.size = some j ∧
      j < m.size ∧ m.table[j]? = some q ∧ out.map.table = m.table.set j new ∧
      new.key = some k ∧ new.deleted = false ∧
      ((q.key = some k ∧ q.deleted = false) ∨ (q.key = none ∧ q.deleted = true)) := by
  rcases HashMap_insert_shape hw h with ⟨_, hf, _, _⟩ | ⟨j, q, hf, hj, hq, _, h2⟩
  · rw [hf] at ht; cases ht
  · have hqm : q ∈ m.table := List.mem_iff_getElem?.2 ⟨j, hq⟩
    rcases h2 with ⟨hqe, hm, _⟩ | ⟨_, hqd, hm, _⟩
    · have hqk : q.key = some k := (key_isSome_of_equals he hqe).2
      have hqd : q.deleted = false := (hinv q hqm).2 (by rw [hqk]; rfl)
      exact ⟨j, q, m.alloc (m.dealloc q) (some k) v, hf, hj, hq, by rw [hm], (ha _ _ _).1,
        hfl q (some k) v hqd, Or.inl ⟨hqk, hqd⟩⟩
    · have hqk : q.key = none := by
        cases hk : q.key with
        | none => rfl
        | some x =>
          have := (hinv q hqm).2 (by rw [hk]; rfl)
          rw [hqd] at this
          cases this
      exact ⟨j, q, { m.alloc q (some k) v with deleted := false }, hf, hj, hq, by rw [hm],
        (ha q (some k) v).1, rfl, Or.inr ⟨hqk, hqd⟩⟩

theorem insertState_step {K V : Type} [DecidableEq K] {m : HashMap K V} (hw : WellFormed m)
    (he : EqualsContract m.equals) (ha : AllocStores m.alloc)
    (hfl : UpdateKeepsLive m.alloc m.dealloc) {keys : List K} (hst : InsertState m keys)
    {k : K} {v : Option V} {out : Outcome K V Bool}
    (h : HashMap_insert m (some k) v = some out) (ht : out.ret = true) :
    InsertState out.map (k :: keys) := by
  obtain ⟨i1, i2, i3, i4⟩ := hst
  obtain ⟨hw1, hs1, hh1, he1, _, _⟩ := HashMap_insert_config hw h
  obtain ⟨j, q, new, hf, hj, hq, htab, hnk, hnd, hcase⟩ :=
    HashMap_insert_written_slot hw he ha hfl i1 h ht
  have hjl : j < m.table.length := by rw [hw.1]; exact hj
  have hqm : q ∈ m.table := List.mem_iff_getElem?.2 ⟨j, hq⟩
  have hnewAt : out.map.table[j]? = some new := by
    rw [htab]; exact List.getElem?_set_self hjl
  have hother : ∀ i, j ≠ i → out.map.table[i]? = m.table[i]? := by
    intro i hij
    rw [htab, List.getElem?_set_ne hij]
  -- a stored key equal to `k` can only sit in slot `j`
  have honly : ∀ i p, m.table[i]? = some p → p.key = some k → i = j := by
    intro i p hp hk
    have := i3 i p k hp hk
    rw [hf] at this
    exact (Option.some.inj this).symm
  refine ⟨?_, ?_, ?_, ?_⟩
  · intro p hp
    rw [htab] at hp
    rcases List.mem_or_eq_of_mem_set hp with hp | rfl
    · exact i1 p hp
    · simp [hnk, hnd]
  · intro x
    rw [List.mem_cons, ← i2 x]
    constructor
    · rintro ⟨p, hp, hk⟩
      rw [htab] at hp
      rcases List.mem_or_eq_of_mem_set hp with hp | rfl
      · exact Or.inr ⟨p, hp, hk⟩
      · rw [hnk] at hk
        exact Or.inl (Option.some.inj hk).symm
    · rintro (rfl | ⟨p, hp, hk⟩)
      · exact ⟨new, List.mem_iff_getElem?.2 ⟨j, hnewAt⟩, hnk⟩
      · obtain ⟨i, hi⟩ := List.mem_iff_getElem?.1 hp
        by_cases hij : j = i
        · subst hij
          rw [hq] at hi
          cases hi
          rcases hcase with ⟨hqk, _⟩ | ⟨hqk, _⟩
          · rw [hqk] at hk
            cases hk
            exact ⟨new, List.mem_iff_getElem?.2 ⟨j, hnewAt⟩, hnk⟩
          · rw [hqk] at hk
            cases hk
        · exact ⟨p, List.mem_iff_getElem?.2 ⟨i, by rw [hother i hij]; exact hi⟩, hk⟩
  · intro i p x hp hk
    rw [hh1, hs1]
    by_cases hij : j = i
    · subst hij
      rw [hnewAt] at hp
      cases hp
      rw [hnk] at hk
      cases hk
      exact firstMatch_set_self hw hf hs1 htab
        (by rw [he1, hnk, equals_self he k]; rfl) (fun p hp => by rw [he1] at hp; exact hp)
    · rw [hother i hij] at hp
      apply firstMatch_mono (i3 i p x hp hk) hs1
      · unfold slotSat
        rw [hother i hij, hp, he1]
        simp only [hk, equals_self he x, Bool.true_or]
      · intro a hsat
        unfold slotSat at hsat ⊢
        by_cases haj : j = a
        · subst haj
          rw [hnewAt, he1] at hsat
          simp only [hnk, hnd, Bool.or_false] at hsat
          rw [hq]
          rcases hcase with ⟨hqk, hqd⟩ | ⟨_, hqd⟩
          · simp only [hqk, hqd, Bool.or_false]; exact hsat
          · simp only [hqd, Bool.or_true]
        · rw [hother a haj, he1] at hsat
          exact hsat
  · have hcnt := countP_set_of (fun p : Pair K V => p.key.isSome) m.table j new q hq
    rw [htab]
    simp only [hnk, Option.isSome_some, if_true] at hcnt
    rcases hcase with ⟨hqk, _⟩ | ⟨hqk, _⟩
    · have hmem : k ∈ keys := (i2 k).1 ⟨q, hqm, hqk⟩
      rw [List.dedup_cons_of_mem hmem, ← i4]
      simp only [hqk, Option.isSome_some, if_true] at hcnt
      omega
    · have hnot : k ∉ keys := by
        intro hmem
        obtain ⟨p, hp, hk⟩ := (i2 k).2 hmem
        obtain ⟨i, hi⟩ := List.mem_iff_getElem?.1 hp
        have := honly i p hi hk
        subst this
        rw [hq] at hi
        cases hi
        rw [hqk] at hk
        cases hk
      rw [List.dedup_cons_of_not_mem hnot, List.length_cons, ← i4]
      simp only [hqk, Option.isSome_none, Bool.false_eq_true, if_false] at hcnt
      omega

theorem InsertOnly.state {K V : Type} [DecidableEq K] {C : Nat} {hash : Option K → Nat}
    {equals : Option K → Option K → Bool}
    {alloc : Pair K V → Option K → Option V → Pair K V} {dealloc : Pair K V → Pair K V}
    (hC : 1 ≤ C) (he : EqualsContract equals) (ha : AllocStores alloc)
    (hfl : UpdateKeepsLive alloc dealloc) {m : HashMap K V} {keys : List K}
    (hr : InsertOnly (HashMap_make C hash equals alloc dealloc) m keys) :
    WellFormed m ∧ SameConfig (HashMap_make C hash equals alloc dealloc) m ∧
      InsertState m keys := by
  induction hr with
  | start =>
    exact ⟨HashMap_make_wf C hC hash equals alloc dealloc, ⟨rfl, rfl, rfl, rfl, rfl⟩,
      insertState_make C hash equals alloc dealloc⟩
  | @accepted m1 keys1 out1 k v _ h ht ih =>
    obtain ⟨hw, hcfg, hst⟩ := ih
    obtain ⟨hw1, hcfg1⟩ := HashMap_insert_config hw h
    obtain ⟨_, _, h3, h4, h5⟩ := hcfg
    exact ⟨hw1, SameConfig.trans ⟨‹_›, ‹_›, h3, h4, h5⟩ hcfg1,
      insertState_step hw (by rw [h3]; exact he) (by rw [h4]; exact ha)
        (by rw [h4, h5]; exact hfl) hst h ht⟩
  | @refused m1 keys1 out1 k v _ h hf ih =>
    obtain ⟨hw, hcfg, hst⟩ := ih
    rcases HashMap_insert_shape hw h with ⟨_, _, hm, _⟩ | ⟨_, _, _, _, _, ht, _⟩
    · rw [hm]; exact ⟨hw, hcfg, hst⟩
    · rw [ht] at hf; cases hf

theorem insertOnly_updatedMap : InsertOnly (exampleMap 2) updatedMap [1, 2, 1] :=
  InsertOnly.refused 3 (some 30)
    (InsertOnly.accepted 1 (some 11)
      (InsertOnly.accepted 2 (some 20)
        (InsertOnly.accepted 1 (some 10) InsertOnly.start
          (rfl : HashMap_insert (exampleMap 2) (some 1) (some 10) =
            some ⟨true, oneKeyMap, [StrategyCall.alloc 0]⟩) rfl)
        (rfl : HashMap_insert oneKeyMap (some 2) (some 20) =
          some ⟨true, fullMap, [StrategyCall.alloc 1]⟩) rfl)
      (rfl : HashMap_insert fullMap (some 1) (some 11) =
        some ⟨true, updatedMap, [StrategyCall.dealloc 0, StrategyCall.alloc 0]⟩) rfl)
    (rfl : HashMap_insert updatedMap (some 3) (some 30) = some ⟨false, updatedMap, []⟩) rfl

theorem HashMap_count_loop_fault {K V : Type} (map : HashMap K V) (n : Nat) :
    ∀ i sum, i ≤ map.table.length → map.table.length < i + n →
      HashMap_count_loop map n i sum = none := by
  induction n with
  | zero => intro i sum h1 h2; omega
  | succ n ih =>
    intro i sum h1 h2
    by_cases hi : i < map.table.length
    · simp only [HashMap_count_loop, List.getElem?_eq_getElem hi]
      split
      · exact ih (i + 1) (sum + 1) (by omega) (by omega)
      · exact ih (i + 1) sum (by omega) (by omega)
    · have : map.table[i]? = none := List.getElem?_eq_none (by omega)
      simp only [HashMap_count_loop, this]

theorem HashMap_count_fault {K V : Type} (map : HashMap K V)
    (h : map.table.length < map.size) : HashMap_count map = none :=
  HashMap_count_loop_fault map map.size 0 0 (Nat.zero_le _) (by omega)

theorem HashMap_resize_length {K V : Type} (pairBytes : Nat) (fresh : Nat → Pair K V)
    (map : HashMap K V) (size : Nat) :
    (HashMap_resize pairBytes fresh map size).table.length = size / pairBytes ∧
      (HashMap_resize pairBytes fresh map size).size = size := by
  simp [HashMap_resize]

theorem reachable_flaggedMap :
    Reachable (HashMap_make 2 constHash inteq storeAlloc resetDealloc) flaggedMap :=
  Reachable.insert 1 (some 11)
    (Reachable.insert 1 (some 10) Reachable.start
      (rfl : HashMap_insert (HashMap_make 2 constHash inteq storeAlloc resetDealloc)
          (some 1) (some 10) =
        some ⟨true, resetMap [⟨some 1, some 10, false⟩, Pair_default],
          [StrategyCall.alloc 0]⟩))
    (rfl : HashMap_insert (resetMap [⟨some 1, some 10, false⟩, Pair_default]) (some 1)
        (some 11) =
      some ⟨true, flaggedMap, [StrategyCall.dealloc 0, StrategyCall.alloc 0]⟩)

theorem reachableClear_flaggedMap :
    ReachableClear (HashMap_make 2 constHash inteq storeAlloc resetDealloc) flaggedMap :=
  ReachableClear.insert 1 (some 11)
    (ReachableClear.insert 1 (some 10) ReachableClear.start
      (rfl : HashMap_insert (HashMap_make 2 constHash inteq storeAlloc resetDealloc)
          (some 1) (some 10) =
        some ⟨true, resetMap [⟨some 1, some 10, false⟩, Pair_default],
          [StrategyCall.alloc 0]⟩))
    (rfl : HashMap_insert (resetMap [⟨some 1, some 10, false⟩, Pair_default]) (some 1)
        (some 11) =
      some ⟨true, flaggedMap, [StrategyCall.dealloc 0, StrategyCall.alloc 0]⟩)

theorem insertOnly_overwrittenMap :
    InsertOnly (HashMap_make 2 constHash inteq storeAlloc resetDealloc) overwrittenMap
      [2, 1, 1] :=
  InsertOnly.accepted 2 (some 20)
    (InsertOnly.accepted 1 (some 11)
      (InsertOnly.accepted 1 (some 10) InsertOnly.start
        (rfl : HashMap_insert (HashMap_make 2 constHash inteq storeAlloc resetDealloc)
            (some 1) (some 10) =
          some ⟨true, resetMap [⟨some 1, some 10, false⟩, Pair_default],
            [StrategyCall.alloc 0]⟩) rfl)
      (rfl : HashMap_insert (resetMap [⟨some 1, some 10, false⟩, Pair_default]) (some 1)
          (some 11) =
        some ⟨true, flaggedMap, [StrategyCall.dealloc 0, StrategyCall.alloc 0]⟩) rfl)
    (rfl : HashMap_insert flaggedMap (some 2) (some 20) =
      some ⟨true, overwrittenMap, [StrategyCall.alloc 0]⟩) rfl

/-! ## The claims -/

/-! ### C1. Round trip -/

/-- C1: for every capacity `C ≥ 1` and every list of pairwise distinct keys with their
values, shorter than `C`, inserting the pairs in order into `HashMap_make(C, …)` returns
true for every pair, and afterwards `HashMap_get(k)` returns `v` for every pair `(k, v)`
of the list; `equals` is a genuine equality that is false on `NULL` and `alloc` stores
the key and the value it is given. -/
theorem round_trip {K V : Type} (C : Nat) (hC : 1 ≤ C) (hash : Option K → Nat)
    (equals : Option K → Option K → Bool)
    (alloc : Pair K V → Option K → Option V → Pair K V) (dealloc : Pair K V → Pair K V)
    (he : EqualsContract equals) (ha : AllocStores alloc) (kvs : List (K × Option V))
    (hnd : (kvs.map Prod.fst).Nodup) (hlen : kvs.length < C) :
    ∃ m, insertMany (HashMap_make C hash equals alloc dealloc) kvs =
        some (m, List.replicate kvs.length true) ∧
      ∀ kv ∈ kvs, HashMap_get m (some kv.1) = some kv.2 := by
  obtain ⟨m, hmany, hw, hcfg, hinv⟩ :=
    insertMany_distinct kvs [] (HashMap_make C hash equals alloc dealloc)
      (HashMap_make_wf C hC hash equals alloc dealloc) he ha
      (insertedExactly_make C hash equals alloc dealloc) (by simpa using hnd)
      (by simpa [HashMap_make] using hlen)
  rw [List.nil_append] at hinv
  obtain ⟨i1, i2, _, _⟩ := hinv
  have he1 : EqualsContract m.equals := by rw [hcfg.2.2.1]; exact he
  refine ⟨m, hmany, fun kv hkv => ?_⟩
  have hs : m.hash (some kv.1) % m.size < m.size := (clamp_eq m hw _).2
  rw [HashMap_get_eq m hw (some kv.1)]
  obtain ⟨p, hp, hpk⟩ := i2 kv hkv
  have hex : ∃ p ∈ m.table, (fun q : Pair K V => m.equals q.key (some kv.1)) p = true :=
    ⟨p, hp, by simp only [hpk]; exact equals_self he1 kv.1⟩
  obtain ⟨j, hj⟩ := Option.isSome_iff_exists.1 ((firstMatch_full_isSome hw hs).2 hex)
  rw [hj]
  obtain ⟨_, q, hq, hqe⟩ := firstMatch_some hw hj
  have hqk : q.key = some kv.1 := (key_isSome_of_equals he1 hqe).2
  have hmem : (kv.1, q.value) ∈ kvs := i1 q (List.mem_iff_getElem?.2 ⟨j, hq⟩) kv.1 hqk
  have hval : q.value = kv.2 :=
    snd_unique_of_nodup_keys kvs hnd kv.1 q.value kv.2 hmem hkv
  simp only [valueAt, hq, hval]

theorem round_trip_witness :
    1 ≤ 3 ∧ EqualsContract inteq ∧ AllocStores storeAlloc ∧
    ([((1 : Int), some 10), (2, some 20)].map Prod.fst).Nodup ∧
    [((1 : Int), some 10), (2, some 20)].length < 3 ∧
    ∃ m, insertMany (HashMap_make 3 constHash inteq storeAlloc freeDealloc)
          [((1 : Int), some 10), (2, some 20)] =
        some (m, List.replicate [((1 : Int), some 10), (2, some 20)].length true) ∧
      ∀ kv ∈ [((1 : Int), some 10), (2, some 20)], HashMap_get m (some kv.1) = some kv.2 :=
  ⟨by decide, inteq_contract, storeAlloc_stores, by decide, by decide,
    round_trip 3 (by decide) constHash inteq storeAlloc freeDealloc inteq_contract
      storeAlloc_stores [(1, some 10), (2, some 20)] (by decide) (by decide)⟩

/-! ### C2. Latest value wins -/

/-- C2: on every table reachable from `HashMap_make` (capacity ≥ 1) by inserts and
removes, if `HashMap_insert(k, v1)` returns true then a following `HashMap_insert(k, v2)`
also returns true, `HashMap_get(k)` then returns `v2`, and `HashMap_count` is the same
after the second insert as after the first. -/
theorem latest_value_wins {K V : Type} (C : Nat) (hC : 1 ≤ C) (hash : Option K → Nat)
    (equals : Option K → Option K → Bool)
    (alloc : Pair K V → Option K → Option V → Pair K V) (dealloc : Pair K V → Pair K V)
    (he : EqualsContract equals) (ha : AllocStores alloc) (m : HashMap K V)
    (hr : Reachable (HashMap_make C hash equals alloc dealloc) m) (k : K) (v1 v2 : Option V)
    (out1 : Outcome K V Bool) (h1 : HashMap_insert m (some k) v1 = some out1)
    (ht : out1.ret = true) :
    ∃ out2 c, HashMap_insert out1.map (some k) v2 = some out2 ∧ out2.ret = true ∧
      HashMap_get out2.map (some k) = some v2 ∧
      HashMap_count out1.map = some c ∧ HashMap_count out2.map = some c := by
  obtain ⟨hw, _, _, heq, hal, _⟩ := Reachable.of_make hC hr
  obtain ⟨hw1, hs1, hh1, he1, ha1, _⟩ := HashMap_insert_config hw h1
  obtain ⟨j, new1, hf, hj, htab1, hk1, _⟩ :=
    HashMap_insert_true_slot hw (by rw [hal]; exact ha) h1 ht
  have hjl : j < m.table.length := by rw [hw.1]; exact hj
  have hjl1 : j < out1.map.table.length := by rw [htab1]; simpa using hjl
  have hslot1 : out1.map.table[j]? = some new1 := by
    rw [htab1]; exact List.getElem?_set_self hjl
  have hself : out1.map.equals new1.key (some k) = true := by
    rw [hk1, he1, heq]; exact equals_self he k
  -- the second insert probes to the same slot
  have hf1 : firstMatch out1.map (fun p => out1.map.equals p.key (some k) || p.deleted)
      (out1.map.hash (some k) % out1.map.size) out1.map.size = some j := by
    rw [hh1, hs1]
    exact firstMatch_set_self hw hf hs1 htab1 (by simp [hself])
      (fun p hp => by rw [he1] at hp; exact hp)
  obtain ⟨out2, h2⟩ : ∃ out2, HashMap_insert out1.map (some k) v2 = some out2 :=
    ⟨_, HashMap_insert_eq out1.map hw1 (some k) v2⟩
  obtain ⟨hw2, hs2, hh2, he2, _, _⟩ := HashMap_insert_config hw1 h2
  rcases HashMap_insert_shape hw1 h2 with ⟨hn, _⟩ | ⟨j2, p2, hf2, _, hp2, ht2, hcase⟩
  · rw [hf1] at hn; cases hn
  · rw [hf1] at hf2
    cases hf2
    rw [hslot1] at hp2
    cases hp2
    rcases hcase with ⟨_, hm2, _⟩ | ⟨hne, _⟩
    · have htab2 : out2.map.table =
          out1.map.table.set j (out1.map.alloc (out1.map.dealloc new1) (some k) v2) := by
        rw [hm2]
      have ha1c : AllocStores out1.map.alloc := by rw [ha1, hal]; exact ha
      have hk2 := (ha1c (out1.map.dealloc new1) (some k) v2).1
      have hv2 := (ha1c (out1.map.dealloc new1) (some k) v2).2
      refine ⟨out2, _, h2, ht2, ?_, HashMap_count_eq out1.map hw1.1, ?_⟩
      · rw [HashMap_get_eq out2.map hw2 (some k), hh2, hs2]
        have hself2 : out1.map.equals
            (out1.map.alloc (out1.map.dealloc new1) (some k) v2).key (some k) = true := by
          rw [hk2, he1, heq]; exact equals_self he k
        rw [firstMatch_set_self hw1 hf1 hs2 htab2 (by rw [he2]; exact hself2)
          (fun p hp => by rw [he2] at hp; simp [hp])]
        simp only
        rw [valueAt_set_self hjl1 htab2, hv2]
      · rw [HashMap_count_eq out2.map hw2.1, htab2]
        have := countP_set_of (fun q : Pair K V => q.key.isSome) out1.map.table j
          (out1.map.alloc (out1.map.dealloc new1) (some k) v2) new1 hslot1
        simp only [hk2, hk1, Option.isSome_some, if_true] at this
        congr 1
        omega
    · rw [hself] at hne; cases hne

theorem latest_value_wins_witness :
    1 ≤ 2 ∧ EqualsContract inteq ∧ AllocStores storeAlloc ∧
    Reachable (HashMap_make 2 constHash inteq storeAlloc freeDealloc) holeMap ∧
    HashMap_insert holeMap (some 2) (some 21) = some ⟨true, dupMap, [StrategyCall.alloc 0]⟩ ∧
    ∃ out2 c, HashMap_insert dupMap (some 2) (some 22) = some out2 ∧ out2.ret = true ∧
      HashMap_get out2.map (some 2) = some (some 22) ∧
      HashMap_count dupMap = some c ∧ HashMap_count out2.map = some c :=
  ⟨by decide, inteq_contract, storeAlloc_stores, reachable_holeMap, rfl,
    latest_value_wins 2 (by decide) constHash inteq storeAlloc freeDealloc
      inteq_contract storeAlloc_stores holeMap reachable_holeMap 2 (some 21) (some 22)
      ⟨true, dupMap, [StrategyCall.alloc 0]⟩ rfl rfl⟩

/-! ### C3. One entry per key -/

/-- C3 fails on the code: from the reachable table `holeMap` (insert 1, insert 2,
remove 1, all keys colliding), inserting the key `2` twice with the values 21 and 22
returns true both times and leaves two slots holding a key equal to `2`. -/
theorem duplicate_key_after_remove :
    Reachable (exampleMap 2) holeMap ∧
    (HashMap_insert holeMap (some 2) (some 21)).map (fun o => (o.ret, o.map.table))
      = some (true, dupMap.table) ∧
    (HashMap_insert dupMap (some 2) (some 22)).map (fun o => (o.ret, o.map.table))
      = some (true, [⟨some 2, some 22, false⟩, ⟨some 2, some 20, false⟩]) ∧
    List.countP (fun p : Pair Int Nat => inteq p.key (some 2))
      [⟨some 2, some 22, false⟩, ⟨some 2, some 20, false⟩] = 2 :=
  ⟨reachable_holeMap, by decide, by decide, by decide⟩

/-! ### C4. Removed keys are gone -/

/-- C4 fails on the code: on the reachable table `dupMap`, which holds the key `2` in both
slots, `HashMap_remove(2)` returns true and afterwards `HashMap_contains(2)` is still
true and `HashMap_get(2)` still returns the older value 20. -/
theorem removed_key_still_found :
    Reachable (exampleMap 2) dupMap ∧
    (HashMap_remove dupMap (some 2)).map (fun o => (o.ret, o.map.table))
      = some (true, holeMap.table) ∧
    HashMap_contains holeMap (some 2) = some true ∧
    HashMap_get holeMap (some 2) = some (some 20) :=
  ⟨reachable_dupMap, by decide, by decide, by decide⟩

/-! ### C5. Remove result and count -/

/-- C5: on every table reachable from `HashMap_make` (capacity ≥ 1) and every key `k`,
`HashMap_remove(k)` returns true exactly when `HashMap_contains(k)` was true before the
call, and when it returns true `HashMap_count` afterwards is exactly one less than
before. -/
theorem remove_result_and_count {K V : Type} (C : Nat) (hC : 1 ≤ C) (hash : Option K → Nat)
    (equals : Option K → Option K → Bool)
    (alloc : Pair K V → Option K → Option V → Pair K V) (dealloc : Pair K V → Pair K V)
    (he : EqualsContract equals) (m : HashMap K V)
    (hr : Reachable (HashMap_make C hash equals alloc dealloc) m) (k : K) :
    ∃ out b c, HashMap_remove m (some k) = some out ∧
      HashMap_contains m (some k) = some b ∧ HashMap_count m = some c ∧
      (out.ret = true ↔ b = true) ∧
      (out.ret = true → ∃ c2, HashMap_count out.map = some c2 ∧ c2 + 1 = c) := by
  obtain ⟨hw, _, _, heq, _, _⟩ := Reachable.of_make hC hr
  obtain ⟨out, h⟩ : ∃ out, HashMap_remove m (some k) = some out :=
    ⟨_, HashMap_remove_eq m hw (some k)⟩
  refine ⟨out, _, _, h, HashMap_contains_eq m hw (some k), HashMap_count_eq m hw.1, ?_, ?_⟩
  · rcases HashMap_remove_shape hw h with ⟨hf, ht, _, _⟩ | ⟨j, p, hf, _, _, _, ht, _⟩
    · rw [hf, ht]; simp
    · rw [hf, ht]; simp
  · intro hret
    rcases HashMap_remove_shape hw h with ⟨_, ht, _, _⟩ | ⟨j, p, _, _, hp, hpe, _, hm, _⟩
    · rw [ht] at hret; cases hret
    · have hw2 : out.map.table.length = out.map.size := by
        rw [hm]; simpa using hw.1
      refine ⟨_, HashMap_count_eq out.map hw2, ?_⟩
      rw [heq] at hpe
      have hk := (key_isSome_of_equals he hpe).1
      have := countP_set_of (fun q : Pair K V => q.key.isSome) m.table j Pair_default p hp
      rw [hm]
      simpa [hk, Pair_default] using this

theorem remove_result_and_count_witness :
    1 ≤ 2 ∧ EqualsContract inteq ∧
    Reachable (HashMap_make 2 constHash inteq storeAlloc freeDealloc) fullMap ∧
    ∃ out b c, HashMap_remove fullMap (some 2) = some out ∧
      HashMap_contains fullMap (some 2) = some b ∧ HashMap_count fullMap = some c ∧
      (out.ret = true ↔ b = true) ∧
      (out.ret = true → ∃ c2, HashMap_count out.map = some c2 ∧ c2 + 1 = c) :=
  ⟨by decide, inteq_contract, reachable_fullMap,
    remove_result_and_count 2 (by decide) constHash inteq storeAlloc freeDealloc
      inteq_contract fullMap reachable_fullMap 2⟩

/-! ### C6. Insert fails only when full -/

/-- C7: on a table with `size ≥ 1` slots, `HashMap_insert` and `HashMap_remove` both return;
whenever either returns false the map afterwards is the map before (every slot, the
size and the strategies), `HashMap_count` is unchanged, and no `alloc` or `dealloc`
call was made. -/
theorem failure_is_atomic {K V : Type} (map : HashMap K V) (hw : WellFormed map)
    (key : Option K) (value : Option V) :
    (∃ out, HashMap_insert map key value = some out ∧
      (out.ret = false →
        out.map = map ∧ HashMap_count out.map = HashMap_count map ∧ out.calls = [])) ∧
    (∃ out, HashMap_remove map key = some out ∧
      (out.ret = false →
        out.map = map ∧ HashMap_count out.map = HashMap_count map ∧ out.calls = [])) := by
  constructor
  · obtain ⟨out, h⟩ : ∃ out, HashMap_insert map key value = some out :=
      ⟨_, HashMap_insert_eq map hw key value⟩
    refine ⟨out, h, fun hret => ?_⟩
    rcases HashMap_insert_shape hw h with ⟨_, _, hm, hc⟩ | ⟨j, p, _, _, _, ht, _⟩
    · exact ⟨hm, by rw [hm], hc⟩
    · rw [ht] at hret; cases hret
  · obtain ⟨out, h⟩ : ∃ out, HashMap_remove map key = some out :=
      ⟨_, HashMap_remove_eq map hw key⟩
    refine ⟨out, h, fun hret => ?_⟩
    rcases HashMap_remove_shape hw h with ⟨_, _, hm, hc⟩ | ⟨j, p, _, _, _, _, ht, _⟩
    · exact ⟨hm, by rw [hm], hc⟩
    · rw [ht] at hret; cases hret

theorem failure_is_atomic_witness :
    WellFormed fullMap ∧
    ((∃ out, HashMap_insert fullMap (some 3) (some 30) = some out ∧
      (out.ret = false →
        out.map = fullMap ∧ HashMap_count out.map = HashMap_count fullMap ∧ out.calls = [])) ∧
    (∃ out, HashMap_remove fullMap (some 3) = some out ∧
      (out.ret = false →
        out.map = fullMap ∧ HashMap_count out.map = HashMap_count fullMap ∧
          out.calls = []))) :=
  ⟨⟨rfl, by decide⟩, failure_is_atomic fullMap ⟨rfl, by decide⟩ (some 3) (some 30)⟩

/-! ### C8. Enumeration consistency -/

/-- C8 as stated fails: with an `alloc` storing key and value and a `dealloc` that resets
the slot (`*p = Pair_default();`), after `insert(1, 10)`, `insert(1, 11)` the slot holds the
key `1` with `deleted == true`; `HashMap_count` is 1 while `HashMap_entries` and
`HashMap_keys` return a buffer into which they wrote no element. -/
theorem count_differs_from_entries :
    EqualsContract inteq ∧ AllocStores storeAlloc ∧
    Reachable (HashMap_make 2 constHash inteq storeAlloc resetDealloc) flaggedMap ∧
    HashMap_count flaggedMap = some 1 ∧
    HashMap_entries flaggedMap = some (some []) ∧
    HashMap_keys flaggedMap = some (some []) :=
  ⟨inteq_contract, storeAlloc_stores, reachable_flaggedMap, by decide, by decide, by decide⟩

/-- C8 (amended): on every table reachable from `HashMap_make` (capacity ≥ 1) by inserts
and removes, the strategies being such that `dealloc` followed by `alloc` on a slot in use leaves its
`deleted` flag false (as when neither writes the flag),
`HashMap_count` equals the number of slots with `deleted == false`, which is the number
of elements `HashMap_entries` and `HashMap_keys` write; when the count is 0 both return
`NULL`, otherwise they return exactly those slots (resp. their keys). -/
theorem enumeration_consistency {K V : Type} (C : Nat) (hC : 1 ≤ C) (hash : Option K → Nat)
    (equals : Option K → Option K → Bool)
    (alloc : Pair K V → Option K → Option V → Pair K V) (dealloc : Pair K V → Pair K V)
    (he : EqualsContract equals) (ha : AllocStores alloc) (hfl : UpdateKeepsLive alloc dealloc)
    (m : HashMap K V) (hr : Reachable (HashMap_make C hash equals alloc dealloc) m) :
    ∃ c, HashMap_count m = some c ∧
      (m.table.filter (fun p => !p.deleted)).length = c ∧
      (c = 0 → HashMap_entries m = some none ∧ HashMap_keys m = some none) ∧
      (c ≠ 0 →
        HashMap_entries m = some (some (m.table.filter (fun p => !p.deleted))) ∧
        HashMap_keys m =
          some (some ((m.table.filter (fun p => !p.deleted)).map (fun p => p.key)))) := by
  obtain ⟨hw, _⟩ := Reachable.of_make hC hr
  have h1 := reachable_occupied_key hC ha hr
  have h2 := reachable_key_occupied hC he hfl hr
  have hcount : m.table.countP (fun p => p.key.isSome) =
      m.table.countP (fun p => !p.deleted) := by
    apply List.countP_congr
    intro p hp
    constructor
    · intro hk; simp [h2 p hp hk]
    · intro hd; exact h1 p hp (by simpa using hd)
  have hc := HashMap_count_eq m hw.1
  refine ⟨_, hc, ?_, ?_, ?_⟩
  · rw [hcount, List.countP_eq_length_filter]
  · intro h0
    simp [HashMap_entries, HashMap_keys, hc, h0]
  · intro h0
    have hsz : 0 + m.size = m.table.length := by rw [hw.1]; omega
    constructor
    · simp only [HashMap_entries, hc, h0, if_false]
      rw [HashMap_entries_loop_eq m _ m.size 0 [] hsz (by simp [hcount])]
      simp
    · simp only [HashMap_keys, hc, h0, if_false]
      rw [HashMap_keys_loop_eq m _ m.size 0 [] hsz (by simp [hcount])]
      simp

theorem enumeration_consistency_witness :
    1 ≤ 2 ∧ EqualsContract inteq ∧ AllocStores storeAlloc ∧
    UpdateKeepsLive storeAlloc freeDealloc ∧
    Reachable (HashMap_make 2 constHash inteq storeAlloc freeDealloc) holeMap ∧
    ∃ c, HashMap_count holeMap = some c ∧
      (holeMap.table.filter (fun p => !p.deleted)).length = c ∧
      (c = 0 → HashMap_entries holeMap = some none ∧ HashMap_keys holeMap = some none) ∧
      (c ≠ 0 →
        HashMap_entries holeMap = some (some (holeMap.table.filter (fun p => !p.deleted))) ∧
        HashMap_keys holeMap =
          some (some ((holeMap.table.filter (fun p => !p.deleted)).map (fun p => p.key)))) :=
  ⟨by decide, inteq_contract, storeAlloc_stores, store_free_live, reachable_holeMap,
    enumeration_consistency 2 (by decide) constHash inteq storeAlloc freeDealloc
      inteq_contract storeAlloc_stores store_free_live holeMap reachable_holeMap⟩

/-! ### C9. Lookup specification -/

/-- C9 as stated fails: after `HashMap_insert(1, NULL)` on a fresh one-slot table the
slot holds the key `1`, `HashMap_contains(1)` is true, and yet `HashMap_get(1)` returns
the absent (`NULL`) result. -/
theorem get_absent_with_key_present :
    (HashMap_insert (exampleMap 1) (some 1) none).map (fun out => out.map.table)
        = some nullValueMap.table ∧
      WellFormed nullValueMap ∧
      HashMap_get nullValueMap (some 1) = some none ∧
      HashMap_contains nullValueMap (some 1) = some true ∧
      ¬ (HashMap_get nullValueMap (some 1) = some none ↔
          ∀ p ∈ nullValueMap.table, nullValueMap.equals p.key (some 1) = false) := by
  refine ⟨by decide, ⟨rfl, by decide⟩, by decide, by decide, ?_⟩
  intro h
  have := h.1 (by decide) ⟨some 1, none, false⟩ (by decide)
  revert this
  decide

/-- C9 (amended): on a table with `size ≥ 1` slots, `HashMap_get(k)` returns the value
pointer stored in the first slot, in the order `start, start+1, …` wrapping modulo the
capacity with `start = hash(k) mod capacity`, whose key equals `k`, and `NULL` when there
is none; it returns `NULL` exactly when no slot holds a key equal to `k` or that first
slot stores a `NULL` value; `HashMap_contains(k)` returns true exactly when some slot
holds a key equal to `k`. -/
theorem lookup_specification {K V : Type} (map : HashMap K V) (hw : WellFormed map)
    (k : Option K) :
    HashMap_get map k =
        some (match firstMatch map (fun p => map.equals p.key k)
                      (map.hash k % map.size) map.size with
              | none => none
              | some j => valueAt map j) ∧
      (HashMap_get map k = some none ↔
        (∀ p ∈ map.table, map.equals p.key k = false) ∨
        ∃ j, firstMatch map (fun p => map.equals p.key k)
               (map.hash k % map.size) map.size = some j ∧ valueAt map j = none) ∧
      (∃ b, HashMap_contains map k = some b ∧
        (b = true ↔ ∃ p ∈ map.table, map.equals p.key k = true)) := by
  have hs : map.hash k % map.size < map.size := (clamp_eq map hw _).2
  refine ⟨HashMap_get_eq map hw k, ?_, ?_⟩
  · rw [HashMap_get_eq map hw k, ← firstMatch_full_none hw hs]
    cases hf : firstMatch map (fun p => map.equals p.key k) (map.hash k % map.size) map.size with
    | none => simp
    | some j => simp
  · exact ⟨_, HashMap_contains_eq map hw k, firstMatch_full_isSome hw hs⟩

theorem lookup_specification_witness :
    WellFormed fullMap ∧
    (HashMap_get fullMap (some 2) =
        some (match firstMatch fullMap (fun p => fullMap.equals p.key (some 2))
                      (fullMap.hash (some 2) % fullMap.size) fullMap.size with
              | none => none
              | some j => valueAt fullMap j) ∧
      (HashMap_get fullMap (some 2) = some none ↔
        (∀ p ∈ fullMap.table, fullMap.equals p.key (some 2) = false) ∨
        ∃ j, firstMatch fullMap (fun p => fullMap.equals p.key (some 2))
               (fullMap.hash (some 2) % fullMap.size) fullMap.size = some j ∧
             valueAt fullMap j = none) ∧
      (∃ b, HashMap_contains fullMap (some 2) = some b ∧
        (b = true ↔ ∃ p ∈ fullMap.table, fullMap.equals p.key (some 2) = true))) :=
  ⟨⟨rfl, by decide⟩, lookup_specification fullMap ⟨rfl, by decide⟩ (some 2)⟩

/-! ### C10. Independence of other keys -/

/-- C10 as stated fails: with an `alloc` storing key and value and a `dealloc` that resets
the slot (`*p = Pair_default();`), after `insert(1, 10)`, `insert(1, 11)` the key `1` is
found with value 11 in a slot flagged deleted; `insert(2, 20)` then takes that slot, and
afterwards `HashMap_get(1)` is absent and `HashMap_contains(1)` is false. -/
theorem insert_overwrites_other_key :
    EqualsContract inteq ∧ AllocStores storeAlloc ∧
    Reachable (HashMap_make 2 constHash inteq storeAlloc resetDealloc) flaggedMap ∧
    (2 : Int) ≠ 1 ∧
    HashMap_get flaggedMap (some 1) = some (some 11) ∧
    HashMap_contains flaggedMap (some 1) = some true ∧
    (HashMap_insert flaggedMap (some 2) (some 20)).map (fun o => (o.ret, o.map.table))
      = some (true, overwrittenMap.table) ∧
    HashMap_get overwrittenMap (some 1) = some none ∧
    HashMap_contains overwrittenMap (some 1) = some false :=
  ⟨inteq_contract, storeAlloc_stores, reachable_flaggedMap, by decide, by decide, by decide,
    by decide, by decide, by decide⟩

/-- C10 (amended): on every table reachable from `HashMap_make` (capacity ≥ 1) and keys
`k`, `k2` that are not equal (whatever their hashes), the strategies being such that `dealloc` followed by `alloc` on a slot in use leaves its
`deleted` flag false (as when neither writes the flag),
neither `HashMap_insert(k, v)` nor `HashMap_remove(k)` changes the result of
`HashMap_get(k2)` or `HashMap_contains(k2)`. -/
theorem other_keys_unaffected {K V : Type} (C : Nat) (hC : 1 ≤ C) (hash : Option K → Nat)
    (equals : Option K → Option K → Bool)
    (alloc : Pair K V → Option K → Option V → Pair K V) (dealloc : Pair K V → Pair K V)
    (he : EqualsContract equals) (ha : AllocStores alloc) (hfl : UpdateKeepsLive alloc dealloc)
    (m : HashMap K V) (hr : Reachable (HashMap_make C hash equals alloc dealloc) m)
    (k k2 : K) (hne : k ≠ k2) (v : Option V) :
    ∃ r b, HashMap_get m (some k2) = some r ∧ HashMap_contains m (some k2) = some b ∧
      (∃ out, HashMap_insert m (some k) v = some out ∧
        HashMap_get out.map (some k2) = some r ∧
        HashMap_contains out.map (some k2) = some b) ∧
      (∃ out, HashMap_remove m (some k) = some out ∧
        HashMap_get out.map (some k2) = some r ∧
        HashMap_contains out.map (some k2) = some b) := by
  obtain ⟨hw, _, _, heq, hal, _⟩ := Reachable.of_make hC hr
  have hko := reachable_key_occupied hC he hfl hr
  have he1 : EqualsContract m.equals := by rw [heq]; exact he
  have ha1 : AllocStores m.alloc := by rw [hal]; exact ha
  refine ⟨_, _, HashMap_get_eq m hw (some k2), HashMap_contains_eq m hw (some k2), ?_, ?_⟩
  · obtain ⟨out, h⟩ : ∃ out, HashMap_insert m (some k) v = some out :=
      ⟨_, HashMap_insert_eq m hw (some k) v⟩
    obtain ⟨_, hcfg⟩ := HashMap_insert_config hw h
    refine ⟨out, h, ?_⟩
    rw [← HashMap_get_eq m hw (some k2), ← HashMap_contains_eq m hw (some k2)]
    rcases HashMap_insert_shape hw h with ⟨_, _, hm, _⟩ | ⟨j, p, _, _, hp, _, h2⟩
    · rw [hm]; exact ⟨rfl, rfl⟩
    · have hpm : p ∈ m.table := List.mem_iff_getElem?.2 ⟨j, hp⟩
      rcases h2 with ⟨hpe, hm, _⟩ | ⟨_, hpd, hm, _⟩
      · refine lookup_unchanged_of_set hw hcfg hp (by rw [hm]) (some k2)
          (equals_ne he1 hne (Or.inr (key_isSome_of_equals he1 hpe).2))
          (equals_ne he1 hne (Or.inr (ha1 _ _ _).1))
      · have hpk : p.key = none := by
          cases hk : p.key with
          | none => rfl
          | some x =>
            have := hko p hpm (by rw [hk]; rfl)
            rw [hpd] at this
            cases this
        have htab : out.map.table =
            m.table.set j { m.alloc p (some k) v with deleted := false } := by rw [hm]
        exact lookup_unchanged_of_set hw hcfg hp htab (some k2)
          (equals_ne he1 hne (Or.inl hpk))
          (equals_ne he1 hne (Or.inr (ha1 p (some k) v).1))
  · obtain ⟨out, h⟩ : ∃ out, HashMap_remove m (some k) = some out :=
      ⟨_, HashMap_remove_eq m hw (some k)⟩
    obtain ⟨_, hcfg⟩ := HashMap_remove_config hw h
    refine ⟨out, h, ?_⟩
    rw [← HashMap_get_eq m hw (some k2), ← HashMap_contains_eq m hw (some k2)]
    rcases HashMap_remove_shape hw h with ⟨_, _, hm, _⟩ | ⟨j, p, _, _, hp, hpe, _, hm, _⟩
    · rw [hm]; exact ⟨rfl, rfl⟩
    · refine lookup_unchanged_of_set hw hcfg hp (by rw [hm]) (some k2)
        (equals_ne he1 hne (Or.inr (key_isSome_of_equals he1 hpe).2))
        (equals_ne he1 hne (Or.inl rfl))

theorem other_keys_unaffected_witness :
    1 ≤ 2 ∧ EqualsContract inteq ∧ AllocStores storeAlloc ∧
    UpdateKeepsLive storeAlloc freeDealloc ∧
    Reachable (HashMap_make 2 constHash inteq storeAlloc freeDealloc) fullMap ∧
    (1 : Int) ≠ 2 ∧
    ∃ r b, HashMap_get fullMap (some 2) = some r ∧ HashMap_contains fullMap (some 2) = some b ∧
      (∃ out, HashMap_insert fullMap (some 1) (some 11) = some out ∧
        HashMap_get out.map (some 2) = some r ∧
        HashMap_contains out.map (some 2) = some b) ∧
      (∃ out, HashMap_remove fullMap (some 1) = some out ∧
        HashMap_get out.map (some 2) = some r ∧
        HashMap_contains out.map (some 2) = some b) :=
  ⟨by decide, inteq_contract, storeAlloc_stores, store_free_live, reachable_fullMap,
    by decide,
    other_keys_unaffected 2 (by decide) constHash inteq storeAlloc freeDealloc
      inteq_contract storeAlloc_stores store_free_live fullMap reachable_fullMap 1 2
      (by decide) (some 11)⟩

/-! ### C11. String scenario -/

/-- C11: on `HashMap_make(4, strhash, streq, allocate, deallocate)`, where `strhash` is
defined on the four keys used, after inserting `("A",1)`, `("B",2)`, `("C",3)` (each
returns true) the count is 3, `get("A")` is 1 and `get("D")` is absent; then
`remove("B")` returns true, the count is 2, `contains("B")` is false and `get("A")` is
still 1. -/
theorem string_scenario :
    strhash (some strA) = some 1040 ∧ strhash (some strB) = some 1056 ∧
    strhash (some strC) = some 1072 ∧ strhash (some strD) = some 1088 ∧
    ∃ o1 o2 o3 o4,
      HashMap_insert mainMap (some strA) (some 1) = some o1 ∧ o1.ret = true ∧
      HashMap_insert o1.map (some strB) (some 2) = some o2 ∧ o2.ret = true ∧
      HashMap_insert o2.map (some strC) (some 3) = some o3 ∧ o3.ret = true ∧
      HashMap_count o3.map = some 3 ∧
      HashMap_get o3.map (some strA) = some (some 1) ∧
      HashMap_get o3.map (some strD) = some none ∧
      HashMap_remove o3.map (some strB) = some o4 ∧ o4.ret = true ∧
      HashMap_count o4.map = some 2 ∧
      HashMap_contains o4.map (some strB) = some false ∧
      HashMap_get o4.map (some strA) = some (some 1) := by
  refine ⟨by decide, by decide, by decide, by decide, ?_⟩
  refine ⟨_, _, _, _, rfl, rfl, rfl, rfl, rfl, rfl, ?_, ?_, ?_, rfl, rfl, ?_, ?_, ?_⟩ <;> decide

/-! ### C12. Construction -/

/-- C12: for every capacity `C ≥ 1`, `HashMap_make(C, hash, equals, alloc, dealloc)` has
size `C`, `C` slots that are all empty (key `NULL`, value `NULL`, `deleted == true`) and
the four given strategies; hence `HashMap_count` is 0, and for every key `HashMap_get`
returns `NULL` and `HashMap_contains` returns false (`equals` being false on a `NULL`
slot key). -/
theorem construction {K V : Type} (C : Nat) (hC : 1 ≤ C) (hash : Option K → Nat)
    (equals : Option K → Option K → Bool)
    (alloc : Pair K V → Option K → Option V → Pair K V) (dealloc : Pair K V → Pair K V)
    (hnull : ∀ b, equals none b = false) :
    (HashMap_make C hash equals alloc dealloc).size = C ∧
    (HashMap_make C hash equals alloc dealloc).table.length = C ∧
    (∀ p ∈ (HashMap_make C hash equals alloc dealloc).table,
      p.key = none ∧ p.value = none ∧ p.deleted = true) ∧
    (HashMap_make C hash equals alloc dealloc).hash = hash ∧
    (HashMap_make C hash equals alloc dealloc).equals = equals ∧
    (HashMap_make C hash equals alloc dealloc).alloc = alloc ∧
    (HashMap_make C hash equals alloc dealloc).dealloc = dealloc ∧
    HashMap_count (HashMap_make C hash equals alloc dealloc) = some 0 ∧
    ∀ k, HashMap_get (HashMap_make C hash equals alloc dealloc) k = some none ∧
      HashMap_contains (HashMap_make C hash equals alloc dealloc) k = some false := by
  have hq := empty_table_queries (HashMap_make C hash equals alloc dealloc)
    (HashMap_make_wf C hC hash equals alloc dealloc) rfl hnull
  refine ⟨rfl, by simp [HashMap_make], ?_, rfl, rfl, rfl, rfl, hq.1, hq.2⟩
  intro p hp
  have hp2 : p ∈ List.replicate C (Pair_default : Pair K V) := hp
  rw [List.eq_of_mem_replicate hp2]
  exact ⟨rfl, rfl, rfl⟩

theorem construction_witness :
    1 ≤ 3 ∧ (∀ b, inteq none b = false) ∧
    ((HashMap_make 3 constHash inteq storeAlloc freeDealloc).size = 3 ∧
    (HashMap_make 3 constHash inteq storeAlloc freeDealloc).table.length = 3 ∧
    (∀ p ∈ (HashMap_make 3 constHash inteq storeAlloc freeDealloc).table,
      p.key = none ∧ p.value = none ∧ p.deleted = true) ∧
    (HashMap_make 3 constHash inteq storeAlloc freeDealloc).hash = constHash ∧
    (HashMap_make 3 constHash inteq storeAlloc freeDealloc).equals = inteq ∧
    (HashMap_make 3 constHash inteq storeAlloc freeDealloc).alloc = storeAlloc ∧
    (HashMap_make 3 constHash inteq storeAlloc freeDealloc).dealloc = freeDealloc ∧
    HashMap_count (HashMap_make 3 constHash inteq storeAlloc freeDealloc) = some 0 ∧
    ∀ k, HashMap_get (HashMap_make 3 constHash inteq storeAlloc freeDealloc) k = some none ∧
      HashMap_contains (HashMap_make 3 constHash inteq storeAlloc freeDealloc) k
        = some false) :=
  ⟨by decide, fun _ => rfl,
    construction 3 (by decide) constHash inteq storeAlloc freeDealloc (fun _ => rfl)⟩

/-! ### C13. Clear -/

/-- C13: for every table, `HashMap_clear` keeps the capacity and the four strategies,
leaves `size` slots that are all empty (key `NULL`, value `NULL`, `deleted == true`),
so that `HashMap_count` is 0, and calls no strategy, `dealloc` included; when the
capacity is at least 1 and `equals` is false on a `NULL` slot key, `HashMap_contains`
is false for every key afterwards. -/
theorem clear_empties {K V : Type} (map : HashMap K V) :
    SameConfig map (HashMap_clear map).map ∧
    (HashMap_clear map).map.table.length = map.size ∧
    (∀ p ∈ (HashMap_clear map).map.table,
      p.key = none ∧ p.value = none ∧ p.deleted = true) ∧
    HashMap_count (HashMap_clear map).map = some 0 ∧
    (HashMap_clear map).calls = [] ∧
    (1 ≤ map.size → (∀ b, map.equals none b = false) →
      ∀ k, HashMap_contains (HashMap_clear map).map k = some false) := by
  have hlen : (HashMap_clear map).map.table.length = (HashMap_clear map).map.size := by
    simp [HashMap_clear]
  refine ⟨⟨rfl, rfl, rfl, rfl, rfl⟩, by simp [HashMap_clear], ?_, ?_, rfl, ?_⟩
  · intro p hp
    have hp2 : p ∈ List.replicate map.size (Pair_default : Pair K V) := hp
    rw [List.eq_of_mem_replicate hp2]
    exact ⟨rfl, rfl, rfl⟩
  · rw [HashMap_count_eq _ hlen]
    congr 1
    rw [List.countP_eq_zero]
    intro p hp
    have hp2 : p ∈ List.replicate map.size (Pair_default : Pair K V) := hp
    rw [List.eq_of_mem_replicate hp2]
    simp [Pair_default]
  · intro hs hnull k
    exact ((empty_table_queries (HashMap_clear map).map ⟨hlen, hs⟩ rfl hnull).2 k).2

theorem clear_empties_witness :
    1 ≤ dupMap.size ∧ (∀ b, dupMap.equals none b = false) ∧
    HashMap_count (HashMap_clear dupMap).map = some 0 ∧
    (HashMap_clear dupMap).map.table = [Pair_default, Pair_default] ∧
    ∀ k, HashMap_contains (HashMap_clear dupMap).map k = some false :=
  ⟨by decide, fun _ => rfl, (clear_empties dupMap).2.2.2.1, rfl,
    (clear_empties dupMap).2.2.2.2.2 (by decide) (fun _ => rfl)⟩

/-! ### C14. Resize -/

/-- C14 fails on the code: on the reachable table `fullMap` (capacity 2, keys 1 and 2,
count 2), `HashMap_resize(&map, 4)` with `sizeof(Pair) = 24` leaves a 4-byte block
holding no whole slot while `size` becomes 4; whatever the new bytes hold, the table
does not have 4 slots, and `HashMap_count` and `HashMap_get(1)` read outside the
block instead of returning 2 and 10. For every `sizeof(Pair) ≥ 2` the block is shorter
than 4 slots and `HashMap_count` reads outside it. -/
theorem resize_drops_table :
    Reachable (exampleMap 2) fullMap ∧
    HashMap_count fullMap = some 2 ∧ HashMap_get fullMap (some 1) = some (some 10) ∧
    (∀ fresh : Nat → Pair Int Nat,
      (HashMap_resize 24 fresh fullMap 4).size = 4 ∧
      (HashMap_resize 24 fresh fullMap 4).table = [] ∧
      HashMap_count (HashMap_resize 24 fresh fullMap 4) = none ∧
      HashMap_get (HashMap_resize 24 fresh fullMap 4) (some 1) = none) ∧
    ∀ (pairBytes : Nat) (fresh : Nat → Pair Int Nat), 2 ≤ pairBytes →
      (HashMap_resize pairBytes fresh fullMap 4).table.length < 4 ∧
      HashMap_count (HashMap_resize pairBytes fresh fullMap 4) = none := by
  refine ⟨reachable_fullMap, by decide, by decide, fun _ => ⟨rfl, rfl, rfl, rfl⟩, ?_⟩
  intro pairBytes fresh hp
  obtain ⟨hl, hs⟩ := HashMap_resize_length pairBytes fresh fullMap 4
  have hdiv : 4 / pairBytes ≤ 2 := by
    calc 4 / pairBytes ≤ 4 / 2 := Nat.div_le_div_left hp (by norm_num)
      _ = 2 := by norm_num
  have hlt : (HashMap_resize pairBytes fresh fullMap 4).table.length < 4 := by
    rw [hl]; omega
  exact ⟨hlt, HashMap_count_fault _ (by rw [hs]; exact hlt)⟩

/-! ### C15. Provided equality strategies -/

/-- C15: `streq` and `inteq` return false whenever either operand is `NULL`; on two
present operands `streq` returns true exactly when the two C strings are identical
character for character, and `inteq` returns true exactly when the two integers are
equal. -/
theorem equality_strategies :
    (∀ b, streq none b = false) ∧ (∀ a, streq a none = false) ∧
    (∀ a b, streq (some a) (some b) = true ↔ cstr a = cstr b) ∧
    (∀ b, inteq none b = false) ∧ (∀ a, inteq a none = false) ∧
    (∀ a b, inteq (some a) (some b) = true ↔ a = b) := by
  refine ⟨fun _ => rfl, ?_, ?_, fun _ => rfl, ?_, ?_⟩
  · intro a
    cases a <;> rfl
  · intro a b
    simp only [streq, beq_iff_eq]
    exact strcmp_eq_zero a b
  · intro a
    cases a <;> rfl
  · intro a b
    simp only [inteq, beq_iff_eq]

/-! ### C16. Slot invariant -/

/-- C16 as stated fails: with an `alloc` storing a present key (and the value) and a
`dealloc` that resets the slot (`*p = Pair_default();`), after `insert(1, 10)`,
`insert(1, 11)` the update path has left a slot whose key is present and whose flag is
`deleted == true`. -/
theorem live_key_flagged_deleted :
    EqualsContract inteq ∧ AllocStores storeAlloc ∧
    ReachableClear (HashMap_make 2 constHash inteq storeAlloc resetDealloc) flaggedMap ∧
    ∃ p ∈ flaggedMap.table, p.key = some 1 ∧ p.deleted = true :=
  ⟨inteq_contract, storeAlloc_stores, reachableClear_flaggedMap,
    ⟨some 1, some 11, true⟩, by decide, rfl, rfl⟩

/-- C16 (amended): in every table reachable from `HashMap_make` (capacity ≥ 1) by calls
of `HashMap_insert`, `HashMap_remove` (on present keys) and `HashMap_clear`,
the strategies being such that `dealloc` followed by `alloc` on a slot in use leaves its
`deleted` flag false (as when neither writes the flag),
every slot has `deleted == false` if and only if its key is present; so the key test of
`HashMap_count` and the flag test of `HashMap_insert`, `HashMap_entries` and
`HashMap_keys` select the same slots. -/
theorem slot_invariant {K V : Type} (C : Nat) (hC : 1 ≤ C) (hash : Option K → Nat)
    (equals : Option K → Option K → Bool)
    (alloc : Pair K V → Option K → Option V → Pair K V) (dealloc : Pair K V → Pair K V)
    (he : EqualsContract equals) (ha : AllocStores alloc) (hfl : UpdateKeepsLive alloc dealloc)
    (m : HashMap K V) (hr : ReachableClear (HashMap_make C hash equals alloc dealloc) m) :
    (∀ p ∈ m.table, (p.deleted = false ↔ p.key.isSome = true)) ∧
    m.table.filter (fun p => p.key.isSome) = m.table.filter (fun p => !p.deleted) := by
  have hmk := HashMap_make_wf C hC hash equals alloc dealloc
  have hinv : ∀ p ∈ m.table, (p.deleted = false ↔ p.key.isSome = true) := by
    induction hr with
    | start => exact replicate_default_slot_invariant C
    | @insert m1 out1 k v hr0 h ih =>
      obtain ⟨hw, _, _, h3, h4, h5⟩ := reachableClear_config hmk hr0
      exact insert_keeps_slot_invariant hw (by rw [h3]; exact he) (by rw [h4]; exact ha)
        (by rw [h4, h5]; exact hfl) ih h
    | @remove m1 out1 k hr0 h ih =>
      obtain ⟨hw, _⟩ := reachableClear_config hmk hr0
      exact remove_keeps_slot_invariant hw ih h
    | @clear m1 hr0 ih => exact replicate_default_slot_invariant m1.size
  refine ⟨hinv, ?_⟩
  apply List.filter_congr
  intro p hp
  have := hinv p hp
  cases hd : p.deleted <;> cases hk : p.key <;> simp_all

theorem slot_invariant_witness :
    1 ≤ 2 ∧ EqualsContract inteq ∧ AllocStores storeAlloc ∧
    UpdateKeepsLive storeAlloc freeDealloc ∧
    ReachableClear (HashMap_make 2 constHash inteq storeAlloc freeDealloc) clearedMap ∧
    (∀ p ∈ clearedMap.table, (p.deleted = false ↔ p.key.isSome = true)) ∧
    clearedMap.table.filter (fun p => p.key.isSome) =
      clearedMap.table.filter (fun p => !p.deleted) :=
  ⟨by decide, inteq_contract, storeAlloc_stores, store_free_live, reachableClear_clearedMap,
    slot_invariant 2 (by decide) constHash inteq storeAlloc freeDealloc inteq_contract
      storeAlloc_stores store_free_live clearedMap reachableClear_clearedMap⟩

/-! ### C17. Remove-to-empty and later entries -/

/-- C17 as stated fails: there are no capacity, strategies satisfying the contract and
keys `a ≠ b` with colliding hashes such that, after `insert(a, va)`, a successful
`insert(b, vb)` and a successful `remove(a)`, the lookup of `b` fails (`HashMap_contains(b)`
not true, or `HashMap_get(b)` not `vb`). -/
theorem no_entry_hidden_by_remove :
    ¬ ∃ (K V : Type) (C : Nat) (hash : Option K → Nat) (equals : Option K → Option K → Bool)
        (alloc : Pair K V → Option K → Option V → Pair K V) (dealloc : Pair K V → Pair K V)
        (a b : K) (va vb : Option V) (o1 o2 o3 : Outcome K V Bool),
      1 ≤ C ∧ EqualsContract equals ∧ AllocStores alloc ∧ FlagUntouched alloc dealloc ∧
      a ≠ b ∧ hash (some a) % C = hash (some b) % C ∧
      HashMap_insert (HashMap_make C hash equals alloc dealloc) (some a) va = some o1 ∧
      HashMap_insert o1.map (some b) vb = some o2 ∧ o2.ret = true ∧
      HashMap_remove o2.map (some a) = some o3 ∧ o3.ret = true ∧
      (HashMap_contains o3.map (some b) ≠ some true ∨
        HashMap_get o3.map (some b) ≠ some vb) := by
  rintro ⟨K, V, C, hash, equals, alloc, dealloc, a, b, va, vb, o1, o2, o3,
    hC, he, ha, _, hne, _, h1, h2, hb, h3, _, hbad⟩
  obtain ⟨g, c⟩ := later_entry_survives hC he ha hne h1 h2 hb h3
  rcases hbad with hbad | hbad
  · exact hbad c
  · exact hbad g

/-- C17 (amended): for every capacity ≥ 1, strategies satisfying the contract and keys
`a ≠ b` (their hashes colliding modulo the capacity or not), after `insert(a, va)`, a
successful `insert(b, vb)` and `remove(a)`, `HashMap_get(b)` still returns `vb` and
`HashMap_contains(b)` is still true: lookups sweep every slot, so resetting the slot of
`a` to empty hides no other entry. -/
theorem remove_hides_no_entry {K V : Type} (C : Nat) (hC : 1 ≤ C) (hash : Option K → Nat)
    (equals : Option K → Option K → Bool)
    (alloc : Pair K V → Option K → Option V → Pair K V) (dealloc : Pair K V → Pair K V)
    (he : EqualsContract equals) (ha : AllocStores alloc) (a b : K) (hne : a ≠ b)
    (va vb : Option V) (o1 o2 : Outcome K V Bool)
    (h1 : HashMap_insert (HashMap_make C hash equals alloc dealloc) (some a) va = some o1)
    (h2 : HashMap_insert o1.map (some b) vb = some o2) (hb : o2.ret = true) :
    ∃ o3, HashMap_remove o2.map (some a) = some o3 ∧
      HashMap_get o3.map (some b) = some vb ∧
      HashMap_contains o3.map (some b) = some true := by
  have hw0 := HashMap_make_wf C hC hash equals alloc dealloc
  obtain ⟨hw1, _⟩ := HashMap_insert_config hw0 h1
  obtain ⟨hw2, _⟩ := HashMap_insert_config hw1 h2
  obtain ⟨o3, h3⟩ : ∃ o3, HashMap_remove o2.map (some a) = some o3 :=
    ⟨_, HashMap_remove_eq o2.map hw2 (some a)⟩
  exact ⟨o3, h3, later_entry_survives hC he ha hne h1 h2 hb h3⟩

theorem remove_hides_no_entry_witness :
    1 ≤ 2 ∧ EqualsContract inteq ∧ AllocStores storeAlloc ∧ (1 : Int) ≠ 2 ∧
    constHash (some 1) % 2 = constHash (some 2) % 2 ∧
    HashMap_insert (HashMap_make 2 constHash inteq storeAlloc freeDealloc) (some 1) (some 10)
      = some ⟨true, oneKeyMap, [StrategyCall.alloc 0]⟩ ∧
    HashMap_insert oneKeyMap (some 2) (some 20) = some ⟨true, fullMap, [StrategyCall.alloc 1]⟩ ∧
    ∃ o3, HashMap_remove fullMap (some 1) = some o3 ∧
      HashMap_get o3.map (some 2) = some (some 20) ∧
      HashMap_contains o3.map (some 2) = some true :=
  ⟨by decide, inteq_contract, storeAlloc_stores, by decide, rfl, rfl, rfl,
    remove_hides_no_entry 2 (by decide) constHash inteq storeAlloc freeDealloc
      inteq_contract storeAlloc_stores 1 2 (by decide) (some 10) (some 20)
      ⟨true, oneKeyMap, [StrategyCall.alloc 0]⟩ ⟨true, fullMap, [StrategyCall.alloc 1]⟩
      rfl rfl rfl⟩

/-! ### C18. Probe sequence -/

/-- C18: on a table with `C = size ≥ 1` slots and for every key, the start index
`clamp(hash(key)) = hash(key) mod C` lies in `[0, C)`; every index `(start + t) mod C`
lies in `[0, C)` and these indices are pairwise different for `t < C`; as long as the
first `t ≤ C` probes of `HashMap_insert`, `HashMap_get`, `HashMap_remove`,
`HashMap_contains` have not stopped the loop, the loop stands at slot `(start + t) mod C`
with `C - t` iterations left; and each of the four operations returns. -/
theorem probe_sequence {K V : Type} (map : HashMap K V) (hw : WellFormed map)
    (key : Option K) (value : Option V) :
    clamp map (map.hash key) = some (map.hash key % map.size) ∧
    map.hash key % map.size < map.size ∧
    (∀ t, (map.hash key % map.size + t) % map.size < map.size) ∧
    (∀ t1 t2, t1 < map.size → t2 < map.size →
      (map.hash key % map.size + t1) % map.size = (map.hash key % map.size + t2) % map.size →
      t1 = t2) ∧
    (∀ t, t ≤ map.size →
      (∀ s, s < t → slotSat map (fun p => map.equals p.key key || p.deleted)
        ((map.hash key % map.size + s) % map.size) = false) →
      HashMap_insert map key value =
        HashMap_insert_loop map key value (map.size - t)
          ((map.hash key % map.size + t) % map.size)) ∧
    (∀ t, t ≤ map.size →
      (∀ s, s < t → slotSat map (fun p => map.equals p.key key)
        ((map.hash key % map.size + s) % map.size) = false) →
      HashMap_get map key =
          HashMap_get_loop map key (map.size - t) ((map.hash key % map.size + t) % map.size) ∧
      HashMap_remove map key =
          HashMap_remove_loop map key (map.size - t)
            ((map.hash key % map.size + t) % map.size) ∧
      HashMap_contains map key =
          HashMap_contains_loop map key (map.size - t)
            ((map.hash key % map.size + t) % map.size)) ∧
    (∃ out, HashMap_insert map key value = some out) ∧
    (∃ r, HashMap_get map key = some r) ∧
    (∃ out, HashMap_remove map key = some out) ∧
    (∃ b, HashMap_contains map key = some b) := by
  obtain ⟨hc, hs⟩ := clamp_eq map hw (map.hash key)
  have hpos : 0 < map.size := hw.2
  refine ⟨hc, hs, fun t => Nat.mod_lt _ hpos,
    fun t1 t2 h1 h2 h => probe_index_injective h1 h2 h, ?_, ?_,
    ⟨_, HashMap_insert_eq map hw key value⟩, ⟨_, HashMap_get_eq map hw key⟩,
    ⟨_, HashMap_remove_eq map hw key⟩, ⟨_, HashMap_contains_eq map hw key⟩⟩
  · intro t ht hno
    unfold HashMap_insert
    rw [hc]
    simp only
    have hskip := HashMap_insert_loop_skip map key value hw (map.size - t) t _ hs hno
    rw [Nat.sub_add_cancel ht] at hskip
    exact hskip
  · intro t ht hno
    refine ⟨?_, ?_, ?_⟩
    · unfold HashMap_get
      rw [hc]
      simp only
      have hskip := HashMap_get_loop_skip map key hw (map.size - t) t _ hs hno
      rw [Nat.sub_add_cancel ht] at hskip
      exact hskip
    · unfold HashMap_remove
      rw [hc]
      simp only
      have hskip := HashMap_remove_loop_skip map key hw (map.size - t) t _ hs hno
      rw [Nat.sub_add_cancel ht] at hskip
      exact hskip
    · unfold HashMap_contains
      rw [hc]
      simp only
      have hskip := HashMap_contains_loop_skip map key hw (map.size - t) t _ hs hno
      rw [Nat.sub_add_cancel ht] at hskip
      exact hskip

theorem probe_sequence_witness :
    WellFormed fullMap ∧
    (clamp fullMap (fullMap.hash (some 2)) = some (fullMap.hash (some 2) % fullMap.size) ∧
    fullMap.hash (some 2) % fullMap.size < fullMap.size ∧
    (∀ t, (fullMap.hash (some 2) % fullMap.size + t) % fullMap.size < fullMap.size) ∧
    (∀ t1 t2, t1 < fullMap.size → t2 < fullMap.size →
      (fullMap.hash (some 2) % fullMap.size + t1) % fullMap.size =
        (fullMap.hash (some 2) % fullMap.size + t2) % fullMap.size →
      t1 = t2) ∧
    (∀ t, t ≤ fullMap.size →
      (∀ s, s < t → slotSat fullMap (fun p => fullMap.equals p.key (some 2) || p.deleted)
        ((fullMap.hash (some 2) % fullMap.size + s) % fullMap.size) = false) →
      HashMap_insert fullMap (some 2) (some 5) =
        HashMap_insert_loop fullMap (some 2) (some 5) (fullMap.size - t)
          ((fullMap.hash (some 2) % fullMap.size + t) % fullMap.size)) ∧
    (∀ t, t ≤ fullMap.size →
      (∀ s, s < t → slotSat fullMap (fun p => fullMap.equals p.key (some 2))
        ((fullMap.hash (some 2) % fullMap.size + s) % fullMap.size) = false) →
      HashMap_get fullMap (some 2) =
          HashMap_get_loop fullMap (some 2) (fullMap.size - t)
            ((fullMap.hash (some 2) % fullMap.size + t) % fullMap.size) ∧
      HashMap_remove fullMap (some 2) =
          HashMap_remove_loop fullMap (some 2) (fullMap.size - t)
            ((fullMap.hash (some 2) % fullMap.size + t) % fullMap.size) ∧
      HashMap_contains fullMap (some 2) =
          HashMap_contains_loop fullMap (some 2) (fullMap.size - t)
            ((fullMap.hash (some 2) % fullMap.size + t) % fullMap.size)) ∧
    (∃ out, HashMap_insert fullMap (some 2) (some 5) = some out) ∧
    (∃ r, HashMap_get fullMap (some 2) = some r) ∧
    (∃ out, HashMap_remove fullMap (some 2) = some out) ∧
    (∃ b, HashMap_contains fullMap (some 2) = some b)) :=
  ⟨⟨rfl, by decide⟩, probe_sequence fullMap ⟨rfl, by decide⟩ (some 2) (some 5)⟩

/-! ### C19. Keys stay unique without removals -/

/-- C19 as stated fails: with an `alloc` storing key and value and a `dealloc` that resets
the slot (`*p = Pair_default();`), the calls `insert(1, 10)`, `insert(1, 11)`,
`insert(2, 20)` all return true, the third one taking the slot of the key `1`;
`HashMap_count` is then 1 while two different keys were accepted. -/
theorem count_below_accepted_keys :
    EqualsContract inteq ∧ AllocStores storeAlloc ∧
    InsertOnly (HashMap_make 2 constHash inteq storeAlloc resetDealloc) overwrittenMap
      [2, 1, 1] ∧
    HashMap_count overwrittenMap = some 1 ∧
    ([2, 1, 1] : List Int).dedup.length = 2 :=
  ⟨inteq_contract, storeAlloc_stores, insertOnly_overwrittenMap, by decide, by decide⟩

/-- C19 (amended): in every table reachable from `HashMap_make` (capacity ≥ 1) by calls
of `HashMap_insert` only, the strategies being such that `dealloc` followed by `alloc` on a slot in use leaves its
`deleted` flag false (as when neither writes the flag),
no two distinct slots hold equal keys, and `HashMap_count` equals the number of pairwise
different keys whose insert returned true. -/
theorem keys_unique_without_removals {K V : Type} [DecidableEq K] (C : Nat) (hC : 1 ≤ C)
    (hash : Option K → Nat) (equals : Option K → Option K → Bool)
    (alloc : Pair K V → Option K → Option V → Pair K V) (dealloc : Pair K V → Pair K V)
    (he : EqualsContract equals) (ha : AllocStores alloc) (hfl : UpdateKeepsLive alloc dealloc)
    (m : HashMap K V) (keys : List K)
    (hr : InsertOnly (HashMap_make C hash equals alloc dealloc) m keys) :
    (∀ (i j : Nat) (p q : Pair K V), m.table[i]? = some p → m.table[j]? = some q →
      m.equals p.key q.key = true → i = j) ∧
    HashMap_count m = some keys.dedup.length := by
  obtain ⟨hw, ⟨_, _, heq, _, _⟩, _, _, i3, i4⟩ := InsertOnly.state hC he ha hfl hr
  constructor
  · intro i j p q hp hq hpq
    rw [heq] at hpq
    obtain ⟨x, hpx, hqx⟩ := (he _ _).1 hpq
    have h1 := i3 i p x hp hpx
    have h2 := i3 j q x hq hqx
    rw [h1] at h2
    exact Option.some.inj h2
  · rw [HashMap_count_eq m hw.1, i4]

theorem keys_unique_without_removals_witness :
    1 ≤ 2 ∧ EqualsContract inteq ∧ AllocStores storeAlloc ∧
    UpdateKeepsLive storeAlloc freeDealloc ∧
    InsertOnly (HashMap_make 2 constHash inteq storeAlloc freeDealloc) updatedMap [1, 2, 1] ∧
    (∀ (i j : Nat) (p q : Pair Int Nat), updatedMap.table[i]? = some p → updatedMap.table[j]? = some q →
      updatedMap.equals p.key q.key = true → i = j) ∧
    HashMap_count updatedMap = some ([1, 2, 1] : List Int).dedup.length :=
  ⟨by decide, inteq_contract, storeAlloc_stores, store_free_live, insertOnly_updatedMap,
    keys_unique_without_removals 2 (by decide) constHash inteq storeAlloc freeDealloc
      inteq_contract storeAlloc_stores store_free_live updatedMap [1, 2, 1]
      insertOnly_updatedMap⟩

/-! ### C20. The start slot of strhash -/

/-- C20: for every string of 1 to 21 characters with codes in 1..127, `strhash` is
defined (no `int` overflow) and equals the sum over the positions `i = 1..n` of
`c_i * 2^(i+3)`, a multiple of 16; hence on every map of capacity 1, 2, 4, 8 or 16
`clamp(strhash(s))` is 0. -/
theorem strhash_starts_at_zero (s : List Int) (hlen : 1 ≤ s.length ∧ s.length ≤ 21)
    (hc : ∀ c ∈ s, 1 ≤ c ∧ c ≤ 127) :
    ∃ h, strhash (some s) = some h ∧ (h : Int) = shiftedSum s 1 ∧ 16 ∣ h ∧
      ∀ (K V : Type) (map : HashMap K V), map.size ∈ [1, 2, 4, 8, 16] →
        clamp map h = some 0 := by
  obtain ⟨h, hh, hval, _⟩ := strhash_loop_eq s 0 1 (by omega) (by omega) hc (by simp)
  rw [Nat.cast_zero, Int.zero_add] at hval
  have hdvd : 16 ∣ h := by
    have := shiftedSum_dvd s 1 (by omega)
    rw [← hval] at this
    exact_mod_cast this
  refine ⟨h, hh, hval, hdvd, ?_⟩
  intro K V map hsize
  unfold clamp
  simp only [List.mem_cons, List.mem_singleton, List.not_mem_nil, or_false] at hsize
  have hne : map.size ≠ 0 := by omega
  rw [if_neg hne]
  congr 1
  rcases hsize with h1 | h1 | h1 | h1 | h1 <;> rw [h1] <;> omega

theorem strhash_starts_at_zero_witness :
    (1 ≤ strA.length ∧ strA.length ≤ 21) ∧ (∀ c ∈ strA, 1 ≤ c ∧ c ≤ 127) ∧
    ∃ h, strhash (some strA) = some h ∧ (h : Int) = shiftedSum strA 1 ∧ 16 ∣ h ∧
      ∀ (K V : Type) (map : HashMap K V), map.size ∈ [1, 2, 4, 8, 16] →
        clamp map h = some 0 :=
  ⟨by decide, by decide,
    strhash_starts_at_zero strA (by decide) (by decide)⟩

end HashMapC
